import Mathlib

set_option maxHeartbeats 1000000

/-!
# Verification of `.github/scripts/generate.js`

Shallow embedding of the arcosLand publishing script (both variants in the
source file: the offset variant and the alerting variant) and proofs of the
spec's claims about it.

JavaScript numbers are modelled as rationals plus the non-finite values
`NaN`, `Infinity`, `-Infinity`.  JSON values are a standard inductive.
Network attempts and the localized timestamp rendering
(`toLocaleString('pt-BR', ...)`) are oracles/opaque inputs: the code's
control flow given those inputs is what is embedded.
-/

/-- A JavaScript number: finite values are modelled as rationals. -/
inductive JNum where
  | finite (q : ℚ)
  | nan
  | inf
  | negInf
deriving DecidableEq, Repr

/-- `Number.isFinite`. -/
def JNum.isFinite : JNum → Bool
  | .finite _ => true
  | _ => false

/-- The rational carried by a finite number (junk 0 otherwise; used only
under an `isFinite` guard, as in the source). -/
def JNum.toQ : JNum → ℚ
  | .finite q => q
  | _ => 0

/-- JS comparison `x < c` against a finite literal `c` (false on `NaN`). -/
def JNum.ltNum : JNum → ℚ → Bool
  | .finite x, c => decide (x < c)
  | .nan, _ => false
  | .inf, _ => false
  | .negInf, _ => true

/-- JS comparison `x > c` against a finite literal `c` (false on `NaN`). -/
def JNum.gtNum : JNum → ℚ → Bool
  | .finite x, c => decide (c < x)
  | .nan, _ => false
  | .inf, _ => true
  | .negInf, _ => false

/-- JSON-ish values as manipulated by the script.  Objects are ordered
association lists (JS objects preserve insertion order and cannot hold a
duplicate key). -/
inductive JVal where
  | null
  | bool (b : Bool)
  | num (n : JNum)
  | str (s : String)
  | arr (xs : List JVal)
  | obj (fs : List (String × JVal))

/-- `v !== null && typeof v === 'object'` — the recursion guard used all
over the script. -/
def JVal.objlike : JVal → Bool
  | .arr _ => true
  | .obj _ => true
  | _ => false

/-- JS truthiness of a value. -/
def JVal.truthy : JVal → Bool
  | .null => false
  | .bool b => b
  | .num (.finite q) => decide (q ≠ 0)
  | .num .nan => false
  | .num .inf => true
  | .num .negInf => true
  | .str s => decide (s ≠ "")
  | .arr _ => true
  | .obj _ => true

/-- JS property access `v[k]`; `none` models `undefined`.  (Lookup on a
non-object of the property names used by the script yields `undefined`.) -/
def JVal.lookup : JVal → String → Option JVal
  | .obj fs, k => (fs.find? (fun kv => kv.1 == k)).map (·.2)
  | _, _ => none

/-- `typeof v === 'number' && Number.isFinite(v)`. -/
def JVal.isFiniteNum : JVal → Bool
  | .num (.finite _) => true
  | _ => false

/-- `typeof v === 'number'` (`NaN` and the infinities included). -/
def JVal.isNum : JVal → Bool
  | .num _ => true
  | _ => false

/-!
## `fetchJSONWithRetry` (source lines 14–31 and 172–198, identical logic)

The network is an oracle `outcomes : ℕ → Except String JVal` giving each
1-based attempt's result (a failure stands for a network error, a timeout,
an HTTP status ≥ 400, or a JSON parse error — the code routes all four
through the same `fail` handler).  The embedding returns the list of
attempt numbers made, the list of backoff delays scheduled (in order,
one after each non-final failed attempt), and the final outcome.
-/

def fetchGo (outcomes : ℕ → Except String JVal) (retries baseDelay attempt : ℕ) :
    List ℕ × List ℕ × Except String JVal :=
  -- `tryOnce`: `attempt++` makes the 1-based counter
  let a := attempt + 1
  match outcomes a with
  | .ok v => ([a], [], .ok v)
  | .error e =>
      -- `fail`: `if (attempt >= retries) return reject(err);
      --          setTimeout(tryOnce, baseDelay * Math.pow(2, attempt-1));`
      if retries ≤ a then ([a], [], .error e)
      else
        let rest := fetchGo outcomes retries baseDelay a
        (a :: rest.1, baseDelay * 2 ^ (a - 1) :: rest.2.1, rest.2.2)
termination_by retries - attempt
decreasing_by omega

/-- `fetchJSONWithRetry(url, retries = 3, baseDelay = 600, timeoutMs = 8000)`.
The URL and the per-attempt timeout shape the oracle, not the control
flow, so they do not appear. -/
def fetchJSONWithRetry (outcomes : ℕ → Except String JVal)
    (retries : ℕ := 3) (baseDelay : ℕ := 600) :
    List ℕ × List ℕ × Except String JVal :=
  fetchGo outcomes retries baseDelay 0

/-!
## `minusOneDeg` (source lines 33–44)

`Number((v - 1).toFixed(2))`: subtract one in binary64 arithmetic, then
round to 2 decimal places.  `toFixed` rounds the magnitude to the nearest
hundredth, ties away from zero toward the larger candidate, after
extracting the sign — unless the magnitude has reached `10^21`, where it
falls back to `ToString(x)`; `Number(...)` then parses the string back to
the nearest double.
-/

/-- The exact value of the 2-decimal string `x.toFixed(2)` produces for a
finite `x` below the `10^21` fallback. -/
def round2 (q : ℚ) : ℚ :=
  if q < 0 then -(((Int.floor ((-q) * 100 + 1/2) : ℤ) : ℚ) / 100)
  else ((Int.floor (q * 100 + 1/2) : ℤ) : ℚ) / 100

/-- The scale exponent of the IEEE binary64 value nearest to `q`
(subnormals floor the exponent at `2^-1074`). -/
def flExp (q : ℚ) : ℤ := max (Int.log 2 |q| - 52) (-1074)

/-- Round to the nearest IEEE binary64 value, ties to even — what a JS
arithmetic operation does to its exact rational result.  (Overflow to
`Infinity` is not modelled; no claim goes near `2^1024`.) -/
def flRound (q : ℚ) : ℚ :=
  if q = 0 then 0
  else
    let s : ℚ := |q| * 2 ^ (-flExp q)
    let f : ℤ := ⌊s⌋
    let r : ℚ := s - f
    let m : ℤ := if r < 1/2 then f else if 1/2 < r then f + 1 else if 2 ∣ f then f else f + 1
    (if q < 0 then (-1 : ℚ) else 1) * m * 2 ^ flExp q

/-- `Number((v - 1).toFixed(2))` on a finite double `v`: the subtraction
rounds its exact result to binary64; `toFixed(2)` yields the exact
2-decimal string (of value `round2 d`) unless `|d| ≥ 10^21`, where it
yields `ToString(d)` — a string that reads back to the same double `d`;
`Number(...)` parses the string to the nearest double. -/
def offsetQ (q : ℚ) : ℚ :=
  let d := flRound (q - 1)
  if (10:ℚ)^21 ≤ |d| then d else flRound (round2 d)

/-- The replacement performed on a `value` entry holding a finite number;
all other leaves pass through. -/
def offsetLeaf : JVal → JVal
  | .num (.finite q) => .num (.finite (offsetQ q))
  | v => v

mutual
/-- Source `minusOneDeg`: leaves returned as-is, arrays mapped, objects
rebuilt key by key. -/
def minusOneDeg : JVal → JVal
  | .obj fs => .obj (modFields fs)
  | .arr xs => .arr (modList xs)
  | v => v

/-- The `for (const k of Object.keys(obj))` loop body. -/
def modFields : List (String × JVal) → List (String × JVal)
  | [] => []
  | (k, v) :: r =>
      (k, if k = "value" ∧ v.isFiniteNum = true then offsetLeaf v
          else if v.objlike then minusOneDeg v else v) :: modFields r

/-- `obj.map(minusOneDeg)` for arrays. -/
def modList : List JVal → List JVal
  | [] => []
  | v :: r => minusOneDeg v :: modList r
end

mutual
/-- Does a document contain, at any depth, an object entry literally named
`value` holding a finite number?  (Used by the non-idempotence claim.) -/
def hasFVK : JVal → Bool
  | .obj fs => hasFVKFs fs
  | .arr xs => hasFVKL xs
  | _ => false

def hasFVKFs : List (String × JVal) → Bool
  | [] => false
  | (k, v) :: r => (decide (k = "value") && v.isFiniteNum) || hasFVK v || hasFVKFs r

def hasFVKL : List JVal → Bool
  | [] => false
  | v :: r => hasFVK v || hasFVKL r
end

/-!
## `flattenKV` (source lines 46–57 and 200–215, identical logic)

`Object.keys(obj).sort()` sorts the key strings in code-unit
lexicographic order; for an array, `Object.keys` is the list of decimal
index strings `"0"`, `"1"`, ….  Each leaf contributes one
`path=String(value)` line; the embedding records the `(path, leaf)` pair
(the JS number-to-string conversion of the leaf is not itself modelled;
no claim depends on it).
-/

/-- Code-unit lexicographic `≤` on character lists (what the default JS
`Array.prototype.sort` comparator computes on key strings). -/
def charsLe : List Char → List Char → Bool
  | [], _ => true
  | _ :: _, [] => false
  | a :: as, b :: bs =>
      if a < b then true else if b < a then false else charsLe as bs

/-- The sorting relation on object entries: compare keys. -/
def keyRel (a b : String × JVal) : Prop := charsLe a.1.data b.1.data = true

instance : DecidableRel keyRel := fun a b =>
  inferInstanceAs (Decidable (_ = true))

/-- `Object.keys(obj).sort()` followed by the per-key loop is modelled by
sorting the entry list by key (JS object keys are distinct). -/
def sortFields (fs : List (String × JVal)) : List (String × JVal) :=
  List.insertionSort keyRel fs

/-- Decimal digit characters. -/
def digitCh : ℕ → Char
  | 0 => '0'
  | 1 => '1'
  | 2 => '2'
  | 3 => '3'
  | 4 => '4'
  | 5 => '5'
  | 6 => '6'
  | 7 => '7'
  | 8 => '8'
  | 9 => '9'
  | _ => '0'

/-- Decimal representation of a natural number (JS `String(i)`). -/
def natChars (n : ℕ) : List Char :=
  if n < 10 then [digitCh n]
  else natChars (n / 10) ++ [digitCh (n % 10)]
termination_by n
decreasing_by exact Nat.div_lt_self (by omega) (by omega)

def natStr (n : ℕ) : String := ⟨natChars n⟩

/-- `Object.keys(array)`: elements paired with their decimal index
strings, starting at index `i`. -/
def arrFields : List JVal → ℕ → List (String × JVal)
  | [], _ => []
  | x :: r, i => (natStr i, x) :: arrFields r (i + 1)

/-- `p ? p + '.' + k : k`. -/
def joinPath (p k : String) : String := if p = "" then k else p ++ "." ++ k

/-- `prefix.replace(/\.$/, '')`: drop one trailing dot. -/
def trimDot (p : String) : String :=
  match p.data.getLast? with
  | some '.' => ⟨p.data.dropLast⟩
  | _ => p

mutual
/-- A size measure on documents that ignores the key strings, so that
sorting the entries of a level preserves it. -/
def jsize : JVal → ℕ
  | .obj fs => 1 + jsizeFs fs
  | .arr xs => 1 + jsizeL xs
  | _ => 1

def jsizeFs : List (String × JVal) → ℕ
  | [] => 0
  | (_, v) :: r => 1 + jsize v + jsizeFs r

def jsizeL : List JVal → ℕ
  | [] => 0
  | v :: r => 1 + jsize v + jsizeL r
end

theorem jsizeFs_eq_sum (l : List (String × JVal)) :
    jsizeFs l = (l.map (fun kv => 1 + jsize kv.2)).sum := by
  induction l with
  | nil => simp [jsizeFs]
  | cons a r ih => cases a; simp [jsizeFs, ih]

theorem jsizeFs_sortFields (fs : List (String × JVal)) :
    jsizeFs (sortFields fs) = jsizeFs fs := by
  have hperm : (sortFields fs).Perm fs := List.perm_insertionSort _ _
  rw [jsizeFs_eq_sum, jsizeFs_eq_sum, (hperm.map _).sum_eq]

theorem jsizeFs_arrFields (xs : List JVal) :
    ∀ i, jsizeFs (arrFields xs i) = jsizeL xs := by
  induction xs with
  | nil => intro i; simp [arrFields, jsizeFs, jsizeL]
  | cons x r ih => intro i; simp [arrFields, jsizeFs, jsizeL, ih] <;> omega

mutual
/-- Source `flattenKV`: leaves (reached only at the root call) emit one
line; objects and arrays walk their sorted keys, recursing on object-like
values and emitting a line per leaf value. -/
def flattenKV : JVal → String → List (String × JVal)
  | .obj fs, p => flattenFields (sortFields fs) p
  | .arr xs, p => flattenFields (sortFields (arrFields xs 0)) p
  | v, p => [(trimDot p, v)]
termination_by v _ => jsize v
decreasing_by
  · simp [jsize, jsizeFs_sortFields] <;> omega
  · simp [jsize, jsizeFs_sortFields, jsizeFs_arrFields] <;> omega

/-- The per-key loop of `flattenKV`, over the already-sorted entries. -/
def flattenFields : List (String × JVal) → String → List (String × JVal)
  | [], _ => []
  | (k, v) :: r, p =>
      (if v.objlike then flattenKV v (joinPath p k)
       else [(joinPath p k, v)]) ++ flattenFields r p
termination_by l _ => jsizeFs l
decreasing_by
  · simp [jsizeFs] <;> omega
  · simp [jsizeFs] <;> omega
end

/-!
## `esc` (source lines 59 and 217–222)

Three sequential global single-character replaces, in this order:
`&` → `&amp;`, then `<` → `&lt;`, then `>` → `&gt;`.
-/

/-- Global replacement of one character by a string, as a character list
transform. -/
def replaceAll (c : Char) (r : List Char) (l : List Char) : List Char :=
  l.flatMap (fun x => if x = c then r else [x])

def esc (s : String) : String :=
  ⟨replaceAll '>' ['&', 'g', 't', ';']
    (replaceAll '<' ['&', 'l', 't', ';']
      (replaceAll '&' ['&', 'a', 'm', 'p', ';'] s.data))⟩

/-!
## `toFixed(2)` and the published current value
-/

/-- Two-digit zero-padded decimal. -/
def pad2 (n : ℕ) : String := if n < 10 then "0" ++ natStr n else natStr n

/-- Drop trailing `'0'` characters. -/
def stripZeros (l : List Char) : List Char :=
  (l.reverse.dropWhile (fun c => c == '0')).reverse

/-- Mantissa digits with the decimal point inserted after the first. -/
def mantChars : List Char → List Char
  | [] => ['0']
  | [c] => [c]
  | c :: rest => c :: '.' :: rest

/-- `ToString(x)` for a positive value `x ≥ 10^21`: exponential notation
`d.ddd…e+NN`.  The mantissa is the exact decimal expansion of `⌊x⌋` with
trailing zeros dropped — equal to ECMA's shortest round-tripping digit
string for values such as `10^21` whose expansion ends in zeros (the
shortest-digits search itself is not modelled; only the value `10^21`
exercises this definition in any proof below). -/
def expStr (q : ℚ) : String :=
  let ds := natChars (Int.floor q).toNat
  ⟨mantChars (stripZeros ds)⟩ ++ "e+" ++ natStr (ds.length - 1)

/-- The fixed-notation branch of `toFixed(2)`: round the magnitude to the
nearest hundredth (ties toward the larger candidate) and print with
exactly two fraction digits. -/
def toFixed2Core (q : ℚ) : String :=
  let n : ℕ := (Int.floor (q * 100 + 1/2)).toNat
  natStr (n / 100) ++ "." ++ pad2 (n % 100)

/-- `x.toFixed(2)` for a non-negative finite value: ECMA returns
`ToString(x)` once `x ≥ 10^21`, else two fixed fraction digits. -/
def toFixed2Pos (q : ℚ) : String :=
  if (10:ℚ)^21 ≤ q then expStr q else toFixed2Core q

/-- `x.toFixed(2)`: a minus sign is extracted first, then the magnitude is
rounded. -/
def toFixed2 (q : ℚ) : String :=
  if q < 0 then "-" ++ toFixed2Pos (-q) else toFixed2Pos q

/-- `Number.isFinite(x) ? x.toFixed(2) : 'N/A'` (source lines 70 and 315). -/
def currentStrOf (n : JNum) : String :=
  if n.isFinite then toFixed2 n.toQ else "N/A"

/-!
## The main pipeline (alerting variant, source lines 285–405)

The localized timestamp `tsBr` (`toLocaleString('pt-BR', …)`), the run
timestamp `nowIso` (`new Date().toISOString()`) and `BASE_URL` are opaque
inputs.  File-system writes are recorded as `(name, content)` pairs; the
contents whose assembly goes through `JSON.stringify` / `String(...)` of
numbers carry their interpolated data structurally instead of as one
string, since the JS double-to-string conversion is not modelled.
-/

/-- `!raw || !raw.current || typeof raw.current.value !== 'number' ||
!raw.current.ts` — the validation test, negated (true = valid).  Both
source variants use the same line. -/
def validateV2 (raw : JVal) : Bool :=
  raw.truthy &&
    (match raw.lookup "current" with
     | none => false
     | some cur =>
         cur.truthy &&
         (match cur.lookup "value" with
          | some v => v.isNum
          | none => false) &&
         (match cur.lookup "ts" with
          | some ts => ts.truthy
          | none => false))

/-- `raw.current.value` of a validated document (junk `NaN` on the
unreachable branches). -/
def rawCurrentValue (raw : JVal) : JNum :=
  match raw.lookup "current" with
  | some cur =>
      (match cur.lookup "value" with
       | some (.num n) => n
       | _ => .nan)
  | none => .nan

/-- The plain-text body of the alert email (source lines 239–249). -/
def alertContent (tempRaw : ℚ) (tsBr : String) : String :=
  "Alerta de temperatura em ArcosLand.\n\n" ++
  "Data/hora: " ++ tsBr ++ "\n" ++
  "Temperatura (sem ajuste): " ++ toFixed2 tempRaw ++ " °C\n" ++
  "Limites configurados: mínimo 24 °C, máximo 26 °C.\n\n" ++
  "Origem: GitHub Actions (.github/scripts/generate.js)."

/-- Content of one output artifact. -/
inductive FileContent where
  | text (s : String)
  | flatKV (entries : List (String × JVal))
  | jsonDoc (v : JVal)
  | htmlPage (baseUrl tsBr currentStr : String) (doc : JVal)

/-- The `_headers` artifact (fixed). -/
def headersContent : String :=
  "/*\nCache-Control: no-store, no-cache, must-revalidate, max-age=0\n" ++
  "Pragma: no-cache\nExpires: 0\n"

/-- The `robots.txt` artifact (fixed). -/
def robotsContent : String := "User-agent: *\nAllow: /\n"

/-- The `sitemap.xml` artifact. -/
def sitemapContent (baseUrl nowIso : String) : String :=
  "<?xml version=\"1.0\" encoding=\"UTF-8\"?>\n" ++
  "<urlset xmlns=\"http://www.sitemaps.org/schemas/sitemap/0.9\">\n" ++
  "  <url><loc>" ++ baseUrl ++ "/</loc><lastmod>" ++ nowIso ++
  "</lastmod><changefreq>always</changefreq><priority>1.0</priority></url>\n" ++
  "  <url><loc>" ++ baseUrl ++ "/data.json</loc><lastmod>" ++ nowIso ++
  "</lastmod><changefreq>always</changefreq><priority>0.9</priority></url>\n" ++
  "  <url><loc>" ++ baseUrl ++ "/current.txt</loc><lastmod>" ++ nowIso ++
  "</lastmod><changefreq>always</changefreq><priority>0.9</priority></url>\n" ++
  "  <url><loc>" ++ baseUrl ++ "/txt</loc><lastmod>" ++ nowIso ++
  "</lastmod><changefreq>always</changefreq><priority>0.8</priority></url>\n" ++
  "</urlset>"

/-- The seven artifacts, in write order (source lines 318–320, 379–399). -/
def renderFiles (raw : JVal) (tsBr nowIso baseUrl currentStr : String) :
    List (String × FileContent) :=
  [("current.txt", .text currentStr),
   ("txt", .flatKV (flattenKV raw "")),
   ("data.json", .jsonDoc raw),
   ("index.html", .htmlPage baseUrl tsBr currentStr raw),
   ("_headers", .text headersContent),
   ("robots.txt", .text robotsContent),
   ("sitemap.xml", .text (sitemapContent baseUrl nowIso))]

/-- Observable outcome of one run of the alerting variant. -/
structure RunOutput where
  alerts : List String
  logs : List String
  dirEnsured : Bool
  files : List (String × FileContent)
  exitCode : ℕ

/-- The async IIFE of the alerting variant, after the fetch: validate,
evaluate the threshold alert (whose POST outcome is the oracle
`alertOutcome`, swallowed by the `try/catch`), then write the artifacts.
A thrown validation error is caught by the outer `.catch`, which exits
with status 1 before any directory or file is touched. -/
def mainRun (raw : JVal) (tsBr nowIso baseUrl : String)
    (alertOutcome : Except String Unit) : RunOutput :=
  if validateV2 raw then
    let tempRaw := rawCurrentValue raw
    let alertStep : List String × List String :=
      if tempRaw.isFinite then
        if tempRaw.ltNum 24 || tempRaw.gtNum 26 then
          ([alertContent tempRaw.toQ tsBr],
           match alertOutcome with
           | .ok _ => ["📧 Alerta de temperatura enviado para rodrigosbar@gmail.com"]
           | .error e => ["❌ Erro ao enviar e-mail de alerta: " ++ e])
        else ([], ["Temperatura dentro do intervalo: " ++ toFixed2 tempRaw.toQ ++ " °C"])
      else ([], ["Temperatura bruta não é número finito, ignorando alerta."])
    { alerts := alertStep.1
      logs := alertStep.2 ++ ["✅ OK: arquivos gerados em public"]
      dirEnsured := true
      files := renderFiles raw tsBr nowIso baseUrl (currentStrOf tempRaw)
      exitCode := 0 }
  else
    { alerts := []
      logs := ["❌ ERRO: JSON inesperado: faltando current.ts/value"]
      dirEnsured := false
      files := []
      exitCode := 1 }

/-!
## Spec-side predicates (written from the spec's words, for comparison)
-/

/-- Claim C4's validity condition as worded: a `current` object whose
`value` is a finite number and whose `ts` is present with any non-null
value. -/
def claimValidC4 (raw : JVal) : Prop :=
  ∃ fs, raw.lookup "current" = some (.obj fs) ∧
    (∃ q, (JVal.obj fs).lookup "value" = some (.num (.finite q))) ∧
    (∃ ts, (JVal.obj fs).lookup "ts" = some ts ∧ ts ≠ .null)

/-- The amended validity condition, following the code: `value` need only
be of JS type number (`typeof` — finiteness is never checked, so `NaN`
and `Infinity` pass, and `JSON.parse` can produce `Infinity`), and `ts`
must be truthy (so `0`, `false` and `""` are also rejected), not merely
non-null. -/
def amendValidC4 (raw : JVal) : Prop :=
  ∃ fs, raw.lookup "current" = some (.obj fs) ∧
    (∃ v, (JVal.obj fs).lookup "value" = some v ∧ v.isNum = true) ∧
    (∃ ts, (JVal.obj fs).lookup "ts" = some ts ∧ ts.truthy = true)

/-- A structural path into a document. -/
inductive PathElem where
  | key (k : String)
  | idx (i : ℕ)

/-- Follow a path of keys and indices. -/
def getPath : JVal → List PathElem → Option JVal
  | v, [] => some v
  | .obj fs, .key k :: p =>
      (match (JVal.obj fs).lookup k with
       | some v => getPath v p
       | none => none)
  | .arr xs, .idx i :: p =>
      (match xs.get? i with
       | some v => getPath v p
       | none => none)
  | _, _ => none

/-- Does the path end at an object entry literally named `value`? -/
def endsWithValue (p : List PathElem) : Bool :=
  match p.getLast? with
  | some (.key k) => k == "value"
  | _ => false

/-- `'0' ≤ c ≤ '9'`. -/
def isDigitCh (c : Char) : Bool := '0' ≤ c && c ≤ '9'

/-- Does the string spell a plain decimal number with exactly two fraction
digits (optional leading minus, at least one integer digit)?  This is the
spec's "parses as a valid 2-decimal-place number". -/
def twoDecMag (l : List Char) : Bool :=
  match l.reverse with
  | d2 :: d1 :: '.' :: rest =>
      isDigitCh d2 && isDigitCh d1 && !rest.isEmpty && rest.all isDigitCh
  | _ => false

def twoDecStr (s : String) : Bool :=
  match s.data with
  | '-' :: r => twoDecMag r
  | r => twoDecMag r

/-- A key acceptable to the amended flatten-ordering claim: nonempty, and
every character strictly greater than `'.'` (code point 46). -/
def goodKey (k : String) : Bool :=
  !k.data.isEmpty && k.data.all (fun c => '.' < c)

mutual
/-- The amended flatten-ordering claim's document condition: at every
object level the keys are distinct (as in any JS object), nonempty, and
use only characters above `'.'`. -/
def goodDoc : JVal → Bool
  | .obj fs => decide ((fs.map Prod.fst).Nodup) && goodFs fs
  | .arr xs => goodL xs
  | _ => true

def goodFs : List (String × JVal) → Bool
  | [] => true
  | (k, v) :: r => goodKey k && goodDoc v && goodFs r

def goodL : List JVal → Bool
  | [] => true
  | v :: r => goodDoc v && goodL r
end

/-!
## C1 — retry schedule of `fetchJSONWithRetry`
-/

theorem fetchGo_allFail (outcomes : ℕ → Except String JVal) (errs : ℕ → String)
    (retries base : ℕ) :
    ∀ d a, retries - a = d + 1 →
      (∀ j, a < j → j ≤ retries → outcomes j = .error (errs j)) →
      fetchGo outcomes retries base a =
        (List.range' (a + 1) (retries - a),
         (List.range' a (retries - 1 - a)).map (fun i => base * 2 ^ i),
         .error (errs retries)) := by
  intro d
  induction d with
  | zero =>
      intro a hd hfail
      have h1 : outcomes (a + 1) = .error (errs (a + 1)) := hfail (a + 1) (by omega) (by omega)
      have hra : retries = a + 1 := by omega
      rw [fetchGo]
      simp only [h1, hra]
      rw [if_pos (by omega)]
      simp [List.range']
  | succ d ih =>
      intro a hd hfail
      have h1 : outcomes (a + 1) = .error (errs (a + 1)) := hfail (a + 1) (by omega) (by omega)
      rw [fetchGo]
      simp only [h1]
      rw [if_neg (by omega)]
      rw [ih (a + 1) (by omega) (fun j hj1 hj2 => hfail j (by omega) hj2)]
      have e1 : retries - a = (retries - (a + 1)) + 1 := by omega
      have e2 : retries - 1 - a = (retries - 1 - (a + 1)) + 1 := by omega
      rw [e1, e2, List.range'_succ, List.range'_succ]
      simp

theorem fetchGo_firstOk (outcomes : ℕ → Except String JVal) (errs : ℕ → String)
    (retries base : ℕ) (v : JVal) :
    ∀ d a k, k - a = d → a ≤ k → k < retries →
      (∀ j, a < j → j ≤ k → outcomes j = .error (errs j)) →
      outcomes (k + 1) = .ok v →
      fetchGo outcomes retries base a =
        (List.range' (a + 1) (k + 1 - a),
         (List.range' a (k - a)).map (fun i => base * 2 ^ i),
         .ok v) := by
  intro d
  induction d with
  | zero =>
      intro a k hd hak hkr hfail hok
      have hka : k = a := by omega
      subst hka
      rw [fetchGo]
      simp only [hok]
      simp [List.range']
  | succ d ih =>
      intro a k hd hak hkr hfail hok
      have h1 : outcomes (a + 1) = .error (errs (a + 1)) := hfail (a + 1) (by omega) (by omega)
      rw [fetchGo]
      simp only [h1]
      rw [if_neg (by omega)]
      rw [ih (a + 1) k (by omega) (by omega) hkr (fun j hj1 hj2 => hfail j (by omega) hj2) hok]
      have e1 : k + 1 - a = (k + 1 - (a + 1)) + 1 := by omega
      have e2 : k - a = (k - (a + 1)) + 1 := by omega
      rw [e1, e2, List.range'_succ, List.range'_succ]
      simp

/-- C1: with a 1-based attempt counter, (a) if every one of the `retries`
attempts fails, the run makes exactly attempts `1..retries`, schedules the
next attempt after each failed attempt `k < retries` with a delay of
exactly `baseDelay * 2 ^ (k - 1)` (the delay list, in order, is
`[baseDelay * 2^0, …, baseDelay * 2^(retries-2)]`, with no jitter), and
then rejects with the last attempt's error with no further attempt; and
(b) if attempts `1..k` fail (`k < retries`) and attempt `k + 1` succeeds,
the run makes exactly attempts `1..k+1` with the same backoff delays
`baseDelay * 2^0, …, baseDelay * 2^(k-1)` and resolves with the parsed
value. -/
theorem fetch_retry_backoff_c1 (outcomes : ℕ → Except String JVal)
    (errs : ℕ → String) (retries base : ℕ) (hr : 1 ≤ retries) :
    ((∀ j, 1 ≤ j → j ≤ retries → outcomes j = .error (errs j)) →
      fetchJSONWithRetry outcomes retries base =
        (List.range' 1 retries,
         (List.range (retries - 1)).map (fun i => base * 2 ^ i),
         .error (errs retries))) ∧
    (∀ k v, k < retries →
      (∀ j, 1 ≤ j → j ≤ k → outcomes j = .error (errs j)) →
      outcomes (k + 1) = .ok v →
      fetchJSONWithRetry outcomes retries base =
        (List.range' 1 (k + 1),
         (List.range k).map (fun i => base * 2 ^ i),
         .ok v)) := by
  constructor
  · intro hfail
    have h := fetchGo_allFail outcomes errs retries base (retries - 1) 0
      (by omega) (fun j hj1 hj2 => hfail j (by omega) hj2)
    rw [fetchJSONWithRetry, h]
    simp [List.range_eq_range']
  · intro k v hkr hfail hok
    have h := fetchGo_firstOk outcomes errs retries base v k 0 k rfl
      (by omega) hkr (fun j hj1 hj2 => hfail j (by omega) hj2) hok
    rw [fetchJSONWithRetry, h]
    simp [List.range_eq_range']

/-- Witness for C1: at the default policy (3 attempts, 600 ms base delay)
with every attempt failing, the run is attempts `[1, 2, 3]`, delays
`[600, 1200]`, and rejection with the last error. -/
theorem fetch_retry_backoff_c1_witness :
    fetchJSONWithRetry (fun _ => .error "boom") =
      ([1, 2, 3], [600, 1200], .error "boom") := by
  have h := (fetch_retry_backoff_c1 (fun _ => .error "boom") (fun _ => "boom")
    3 600 (by omega)).1 (fun j _ _ => rfl)
  simpa [List.range', List.range_succ] using h

/-!
## C5 — validation failure writes nothing
-/

/-- C5: a document failing validation aborts the run with exit status 1
before the output directory is ensured and before any of the seven
artifacts is written. -/
theorem validation_abort_c5 (raw : JVal) (tsBr nowIso baseUrl : String)
    (outcome : Except String Unit) (h : validateV2 raw = false) :
    (mainRun raw tsBr nowIso baseUrl outcome).files = [] ∧
    (mainRun raw tsBr nowIso baseUrl outcome).dirEnsured = false ∧
    (mainRun raw tsBr nowIso baseUrl outcome).exitCode = 1 := by
  simp [mainRun, h]

/-- A snapshot missing `current.ts`. -/
def exNoTs : JVal := .obj [("current", .obj [("value", .num (.finite 25))])]

/-- Witness for C5 at a snapshot missing `current.ts`. -/
theorem validation_abort_c5_witness :
    (mainRun exNoTs "ts" "now" "base" (.ok ())).files = [] ∧
    (mainRun exNoTs "ts" "now" "base" (.ok ())).dirEnsured = false ∧
    (mainRun exNoTs "ts" "now" "base" (.ok ())).exitCode = 1 :=
  validation_abort_c5 exNoTs "ts" "now" "base" (.ok ()) (by rfl)

/-!
## C3 — a failed alert POST never disturbs publication
-/

/-- C3: when the alert POST fails with any error, the failure is swallowed
(and logged when an alert was attempted), the seven artifacts are written
exactly as in a run whose alert succeeds, in the same order with the same
contents, and the run exits with status 0. -/
theorem alert_failure_harmless_c3 (raw : JVal) (tsBr nowIso baseUrl : String)
    (e : String) (h : validateV2 raw = true) :
    (mainRun raw tsBr nowIso baseUrl (.error e)).files =
      (mainRun raw tsBr nowIso baseUrl (.ok ())).files ∧
    (mainRun raw tsBr nowIso baseUrl (.error e)).exitCode = 0 ∧
    (mainRun raw tsBr nowIso baseUrl (.error e)).files.map Prod.fst =
      ["current.txt", "txt", "data.json", "index.html", "_headers",
       "robots.txt", "sitemap.xml"] ∧
    ((mainRun raw tsBr nowIso baseUrl (.error e)).alerts ≠ [] →
      ("❌ Erro ao enviar e-mail de alerta: " ++ e) ∈
        (mainRun raw tsBr nowIso baseUrl (.error e)).logs) := by
  refine ⟨by simp [mainRun, h], by simp [mainRun, h],
    by simp [mainRun, h, renderFiles], ?_⟩
  intro hne
  by_cases hf : (rawCurrentValue raw).isFinite
  · by_cases hc : ((rawCurrentValue raw).ltNum 24 || (rawCurrentValue raw).gtNum 26) = true
    · simp [mainRun, h, hf, hc]
    · exact absurd (by simp [mainRun, h, hf, hc]) hne
  · exact absurd (by simp [mainRun, h, hf]) hne

/-- A valid snapshot whose raw value `23.4` is below the 24 °C bound. -/
def exAlert : JVal :=
  .obj [("current", .obj [("value", .num (.finite (117/5))), ("ts", .num (.finite 1))])]

/-- Witness for C3 at the `23.4` snapshot with a failing POST. -/
theorem alert_failure_harmless_c3_witness :
    (mainRun exAlert "ts" "now" "base" (.error "HTTP 500")).files =
      (mainRun exAlert "ts" "now" "base" (.ok ())).files ∧
    (mainRun exAlert "ts" "now" "base" (.error "HTTP 500")).exitCode = 0 ∧
    (mainRun exAlert "ts" "now" "base" (.error "HTTP 500")).files.map Prod.fst =
      ["current.txt", "txt", "data.json", "index.html", "_headers",
       "robots.txt", "sitemap.xml"] ∧
    ((mainRun exAlert "ts" "now" "base" (.error "HTTP 500")).alerts ≠ [] →
      ("❌ Erro ao enviar e-mail de alerta: " ++ "HTTP 500") ∈
        (mainRun exAlert "ts" "now" "base" (.error "HTTP 500")).logs) :=
  alert_failure_harmless_c3 exAlert "ts" "now" "base" "HTTP 500" (by rfl)

/-!
## C4 — what validation actually accepts
-/

theorem lookup_some_obj {w v : JVal} {k : String} (hl : w.lookup k = some v) :
    ∃ fs, w = .obj fs := by
  cases w <;> simp [JVal.lookup] at hl
  exact ⟨_, rfl⟩

/-- C4 (amended): validation succeeds — and the pipeline proceeds to
rendering — if and only if the document has a `current` object whose
`value` is of JS type number (finiteness is never tested: `NaN` and
`Infinity` pass, and `JSON.parse` can produce `Infinity`, e.g. from
`'1e999'`) and whose `ts` is present and *truthy* (so besides `null`, the
values `0`, `false` and `""` are also rejected). -/
theorem validate_iff_c4 (raw : JVal) :
    validateV2 raw = true ↔ amendValidC4 raw := by
  constructor
  · intro h
    rw [validateV2] at h
    rcases hcur : raw.lookup "current" with _ | cur
    · rw [hcur] at h; simp at h
    · rw [hcur] at h
      dsimp only at h
      rcases hval : cur.lookup "value" with _ | v
      · rw [hval] at h; simp at h
      · rw [hval] at h
        dsimp only at h
        rcases hts : cur.lookup "ts" with _ | ts
        · rw [hts] at h; simp at h
        · rw [hts] at h
          dsimp only at h
          simp only [Bool.and_eq_true] at h
          obtain ⟨cfs, rfl⟩ := lookup_some_obj hval
          exact ⟨cfs, hcur, ⟨v, hval, h.2.1.2⟩, ⟨ts, hts, h.2.2⟩⟩
  · rintro ⟨fs, hcur, ⟨v, hval, hvnum⟩, ⟨ts, hts, htr⟩⟩
    obtain ⟨rfs, rfl⟩ := lookup_some_obj hcur
    rw [validateV2, hcur]
    dsimp only
    rw [hval]
    dsimp only
    rw [hts]
    dsimp only
    rw [htr, hvnum]
    simp [JVal.truthy]

/-- The claim's first counterexample snapshot: `current.ts = 0` — present
and non-null, yet falsy. -/
def exC4 : JVal :=
  .obj [("current", .obj [("value", .num (.finite 25)), ("ts", .num (.finite 0))])]

/-- A snapshot whose `current.value` is `Infinity` (as `JSON.parse`
returns for an overflowing literal such as `1e999`). -/
def exC4inf : JVal :=
  .obj [("current", .obj [("value", .num .inf), ("ts", .num (.finite 1))])]

/-- Counterexample to C4 as stated, in both directions: `exC4` satisfies
the claim's validity condition (`value` finite, `ts` present and
non-null) yet validation rejects it, because the code tests
`!raw.current.ts` (truthiness), not mere presence; and `exC4inf` fails
the claim's condition (`value` is not finite) yet validation accepts it,
because the code tests only `typeof value !== 'number'`. -/
theorem validate_c4_counterexample :
    (claimValidC4 exC4 ∧ validateV2 exC4 = false) ∧
    (validateV2 exC4inf = true ∧ ¬ claimValidC4 exC4inf) := by
  refine ⟨⟨⟨[("value", .num (.finite 25)), ("ts", .num (.finite 0))], rfl,
    ⟨25, rfl⟩, ⟨.num (.finite 0), rfl, by simp⟩⟩, rfl⟩, rfl, ?_⟩
  rintro ⟨fs, hcur, ⟨q, hval⟩, -⟩
  have h0 : exC4inf.lookup "current" =
      some (.obj [("value", .num .inf), ("ts", .num (.finite 1))]) := rfl
  rw [hcur] at h0
  injection h0 with h0'
  injection h0' with hfs
  subst hfs
  have h1 : (JVal.obj [("value", JVal.num .inf), ("ts", JVal.num (.finite 1))]).lookup
      "value" = some (.num .inf) := rfl
  rw [hval] at h1
  injection h1 with h2
  injection h2 with h3
  exact JNum.noConfusion h3

/-!
## C8 — `current.txt` is a 2-decimal number or `N/A`
-/

theorem digitCh_digit (m : ℕ) : isDigitCh (digitCh m) = true := by
  rcases m with _|_|_|_|_|_|_|_|_|_|m <;> rfl

theorem natChars_ne_nil (n : ℕ) : natChars n ≠ [] := by
  rw [natChars]
  by_cases h : n < 10
  · simp [h]
  · simp [h]

theorem natChars_digits : ∀ n, ∀ c ∈ natChars n, isDigitCh c = true := by
  intro n
  induction n using Nat.strong_induction_on with
  | _ n ih =>
      intro c hc
      rw [natChars] at hc
      by_cases h : n < 10
      · simp [h] at hc; subst hc; exact digitCh_digit n
      · simp [h] at hc
        rcases hc with h1 | h1
        · exact ih (n / 10) (Nat.div_lt_self (by omega) (by omega)) c h1
        · subst h1; exact digitCh_digit (n % 10)

theorem natChars_lt10 {n : ℕ} (h : n < 10) : natChars n = [digitCh n] := by
  rw [natChars]; simp [h]

theorem natChars_two {n : ℕ} (h1 : 10 ≤ n) (h2 : n < 100) :
    natChars n = [digitCh (n / 10), digitCh (n % 10)] := by
  rw [natChars, if_neg (by omega), natChars_lt10 (by omega)]
  rfl

theorem pad2_shape (m : ℕ) (h : m < 100) :
    ∃ d1 d2, (pad2 m).data = [d1, d2] ∧ isDigitCh d1 = true ∧ isDigitCh d2 = true := by
  rw [pad2]
  by_cases hm : m < 10
  · rw [if_pos hm]
    refine ⟨'0', digitCh m, ?_, rfl, digitCh_digit m⟩
    simp [String.data_append, natStr, natChars_lt10 hm]
  · rw [if_neg hm]
    refine ⟨digitCh (m / 10), digitCh (m % 10), ?_, digitCh_digit _, digitCh_digit _⟩
    simp [natStr, natChars_two (by omega) h]

theorem twoDecMag_toFixed2Core (q : ℚ) : twoDecMag (toFixed2Core q).data = true := by
  obtain ⟨d1, d2, hp, hd1, hd2⟩ :=
    pad2_shape ((Int.floor (q * 100 + 1/2)).toNat % 100) (Nat.mod_lt _ (by omega))
  simp only [one_div] at hp
  have hdata : (toFixed2Core q).data =
      natChars ((Int.floor (q * 100 + 1/2)).toNat / 100) ++ '.' :: [d1, d2] := by
    simp [toFixed2Core, String.data_append, natStr, hp]
  rw [hdata, twoDecMag]
  have hrev : (natChars ((Int.floor (q * 100 + 1/2)).toNat / 100) ++
      '.' :: [d1, d2]).reverse =
      d2 :: d1 :: '.' :: (natChars ((Int.floor (q * 100 + 1/2)).toNat / 100)).reverse := by
    simp
  rw [hrev]
  simp [hd1, hd2, natChars_ne_nil]
  exact fun c hc => natChars_digits _ c hc

theorem toFixed2Core_head_digit (q : ℚ) :
    ∃ c r, (toFixed2Core q).data = c :: r ∧ isDigitCh c = true := by
  rcases hnc : natChars ((Int.floor (q * 100 + 1/2)).toNat / 100) with _ | ⟨c, cs⟩
  · exact absurd hnc (natChars_ne_nil _)
  · refine ⟨c, cs ++ ('.' :: (pad2 ((Int.floor (q * 100 + 1/2)).toNat % 100)).data), ?_, ?_⟩
    · have hnc' := hnc
      simp only [one_div] at hnc'
      simp [toFixed2Core, String.data_append, natStr, hnc']
    · exact natChars_digits _ c (by rw [hnc]; exact List.mem_cons_self _ _)

/-- Below the `10^21` fallback, `toFixed(2)` stays in fixed notation. -/
theorem toFixed2Pos_lt {q : ℚ} (hq : q < (10:ℚ)^21) :
    toFixed2Pos q = toFixed2Core q := by
  rw [toFixed2Pos, if_neg (not_le.mpr hq)]

theorem twoDecStr_toFixed2 (q : ℚ) (hq : |q| < (10:ℚ)^21) :
    twoDecStr (toFixed2 q) = true := by
  rw [toFixed2]
  by_cases hneg : q < 0
  · rw [if_pos hneg]
    have hlt : -q < (10:ℚ)^21 := by
      calc -q ≤ |q| := neg_le_abs q
        _ < (10:ℚ)^21 := hq
    rw [toFixed2Pos_lt hlt]
    have hd : (("-" : String) ++ toFixed2Core (-q)).data =
        '-' :: (toFixed2Core (-q)).data := by
      simp [String.data_append]
    rw [twoDecStr, hd]
    exact twoDecMag_toFixed2Core (-q)
  · rw [if_neg hneg]
    have hlt : q < (10:ℚ)^21 := by
      calc q ≤ |q| := le_abs_self q
        _ < (10:ℚ)^21 := hq
    rw [toFixed2Pos_lt hlt]
    obtain ⟨c, r, hcr, hc⟩ := toFixed2Core_head_digit q
    rw [twoDecStr, hcr]
    split
    · rename_i r' heq
      have hch : c = '-' := by
        have h2 := congrArg List.head? heq
        simpa using h2
      rw [hch] at hc
      simp [isDigitCh] at hc
    · rw [← hcr]
      exact twoDecMag_toFixed2Core q

/-- `natChars` of a power of ten: a one followed by the zeros. -/
theorem natChars_pow10 : ∀ k, natChars (10 ^ k) = '1' :: List.replicate k '0' := by
  intro k
  induction k with
  | zero =>
      rw [pow_zero, natChars]
      norm_num
      rfl
  | succ k ih =>
      have hge : ¬ 10 ^ (k + 1) < 10 := by
        have : (10:ℕ) ^ 1 ≤ 10 ^ (k + 1) := Nat.pow_le_pow_right (by norm_num) (by omega)
        simpa using this
      rw [natChars, if_neg hge]
      have h1 : 10 ^ (k + 1) / 10 = 10 ^ k := by
        rw [pow_succ]; exact Nat.mul_div_cancel _ (by norm_num)
      have h2 : 10 ^ (k + 1) % 10 = 0 := by
        rw [pow_succ]; exact Nat.mul_mod_left _ _
      rw [h1, h2, ih]
      rw [List.replicate_succ' k '0']
      rfl

theorem expStr_eval (q : ℚ) (m : ℕ) (hm : (Int.floor q).toNat = m) :
    expStr q =
      ⟨mantChars (stripZeros (natChars m))⟩ ++ "e+" ++ natStr ((natChars m).length - 1) := by
  rw [expStr, hm]

theorem floor_1e21 : ((Int.floor (1000000000000000000000 : ℚ))).toNat = 10 ^ 21 := by
  rw [show (1000000000000000000000 : ℚ) = ((1000000000000000000000 : ℤ) : ℚ) from by norm_num,
    Int.floor_intCast,
    show ((1000000000000000000000 : ℤ)) = ((10 ^ 21 : ℕ) : ℤ) from by norm_num,
    Int.toNat_natCast]

theorem natStr_21 : natStr 21 = "21" := by
  have h21 : natChars 21 = ['2', '1'] := by
    rw [natChars, if_neg (by norm_num), natChars, if_pos (by norm_num)]
    rfl
  rw [natStr, h21]

/-- At the smallest value of the fallback branch, `toFixed(2)` prints
exponential notation. -/
theorem toFixed2_1e21 : toFixed2 (1000000000000000000000 : ℚ) = "1e+21" := by
  rw [toFixed2, if_neg (by norm_num), toFixed2Pos, if_pos (by norm_num)]
  rw [expStr_eval _ _ floor_1e21, natChars_pow10]
  rw [show ('1' :: List.replicate 21 '0').length - 1 = 21 from by simp, natStr_21]
  rfl

/-- C8 (amended): the content written to `current.txt` is the literal
`N/A` when the chosen value is non-finite, and spells a number with
exactly two fraction digits (optional sign, nonempty all-digit integer
part) whenever the value is finite of magnitude below `10^21`; the
validated pipeline writes exactly that string as `current.txt`.  (At
magnitude `10^21` and beyond, `toFixed(2)` escapes to `ToString` and the
file carries raw float notation — see the counterexample.) -/
theorem current_txt_format_c8 (n : JNum) (raw : JVal) (tsBr nowIso baseUrl : String)
    (outcome : Except String Unit) :
    (∀ q, n = .finite q → |q| < (10:ℚ)^21 → twoDecStr (currentStrOf n) = true) ∧
    (n.isFinite = false → currentStrOf n = "N/A") ∧
    (validateV2 raw = true →
      ("current.txt", FileContent.text (currentStrOf (rawCurrentValue raw))) ∈
        (mainRun raw tsBr nowIso baseUrl outcome).files) := by
  refine ⟨?_, ?_, ?_⟩
  · rintro q rfl hq
    rw [currentStrOf, if_pos (show (JNum.finite q).isFinite = true from rfl)]
    exact twoDecStr_toFixed2 q hq
  · intro h; rw [currentStrOf, if_neg (by simp [h])]
  · intro h; simp [mainRun, h, renderFiles]

/-- Witness for C8: `23.4` renders as a two-decimal string and `NaN`
renders as `N/A`. -/
theorem current_txt_format_c8_witness :
    twoDecStr (currentStrOf (.finite (117/5))) = true ∧
    currentStrOf .nan = "N/A" :=
  ⟨(current_txt_format_c8 (.finite (117/5)) .null "ts" "now" "base" (.ok ())).1
      (117/5) rfl (by rw [show |(117/5 : ℚ)| = 117/5 from by norm_num]; norm_num),
   (current_txt_format_c8 .nan .null "ts" "now" "base" (.ok ())).2.1 rfl⟩

/-- Counterexample to C8 as stated: the finite value `10^21` is printed by
`toFixed(2)` as the exponential-notation string `1e+21` — raw float
notation, not a 2-decimal number. -/
theorem current_txt_format_c8_counterexample :
    (JNum.finite (1000000000000000000000 : ℚ)).isFinite = true ∧
    currentStrOf (.finite (1000000000000000000000 : ℚ)) = "1e+21" ∧
    twoDecStr (currentStrOf (.finite (1000000000000000000000 : ℚ))) = false := by
  have hc : currentStrOf (.finite (1000000000000000000000 : ℚ)) = "1e+21" := by
    rw [currentStrOf,
      if_pos (show (JNum.finite (1000000000000000000000 : ℚ)).isFinite = true from rfl)]
    exact toFixed2_1e21
  exact ⟨rfl, hc, by rw [hc]; rfl⟩

/-!
## C2 — threshold alert decision and message contents
-/

/-- C2 (amended): on a validated snapshot, an alert dispatch is attempted
exactly once if and only if the raw `current.value` is a finite number
strictly below 24 or strictly above 26; a non-finite value skips
evaluation entirely (no attempt); and every attempted message
interpolates the localized timestamp and the raw value rendered by
`toFixed(2)` — a 2-decimal rendering whenever the magnitude is below
`10^21` (at `10^21` and beyond `toFixed` escapes to `ToString`, so the
message then carries exponential notation — see the counterexample). -/
theorem alert_threshold_c2 (raw : JVal) (tsBr nowIso baseUrl : String)
    (outcome : Except String Unit) (h : validateV2 raw = true) :
    ((mainRun raw tsBr nowIso baseUrl outcome).alerts.length = 1 ↔
      ∃ q, rawCurrentValue raw = .finite q ∧ (q < 24 ∨ 26 < q)) ∧
    ((rawCurrentValue raw).isFinite = false →
      (mainRun raw tsBr nowIso baseUrl outcome).alerts = []) ∧
    (∀ msg ∈ (mainRun raw tsBr nowIso baseUrl outcome).alerts,
      ∃ q a b c, rawCurrentValue raw = .finite q ∧
        msg = a ++ tsBr ++ b ++ toFixed2 q ++ c ∧
        (|q| < (10:ℚ)^21 → twoDecStr (toFixed2 q) = true)) := by
  rcases hn : rawCurrentValue raw with q | _ | _ | _
  · by_cases hc : (q < 24 ∨ 26 < q)
    · have hcb : ((JNum.finite q).ltNum 24 || (JNum.finite q).gtNum 26) = true := by
        simp [JNum.ltNum, JNum.gtNum]; exact hc
      refine ⟨by simp [mainRun, h, hn, JNum.isFinite, hcb]; exact hc, ?_, ?_⟩
      · intro hfin; simp [JNum.isFinite] at hfin
      · intro msg hmsg
        simp [mainRun, h, hn, JNum.isFinite, hcb] at hmsg
        refine ⟨q, "Alerta de temperatura em ArcosLand.\n\nData/hora: ",
          "\nTemperatura (sem ajuste): ",
          " °C\nLimites configurados: mínimo 24 °C, máximo 26 °C.\n\n" ++
          "Origem: GitHub Actions (.github/scripts/generate.js).", rfl, ?_, ?_⟩
        · subst hmsg
          simp [alertContent, JNum.toQ, String.append_assoc]
        · exact fun hq => twoDecStr_toFixed2 q hq
    · have hcb : ((JNum.finite q).ltNum 24 || (JNum.gtNum (.finite q) 26)) = false := by
        push_neg at hc
        simp [JNum.ltNum, JNum.gtNum]
        exact hc
      refine ⟨?_, ?_, ?_⟩
      · constructor
        · intro hlen
          have hempty : (mainRun raw tsBr nowIso baseUrl outcome).alerts = [] := by
            simp [mainRun, h, hn, JNum.isFinite, hcb]
          rw [hempty] at hlen
          simp at hlen
        · rintro ⟨q', hq', hcond⟩
          injection hq' with hqq
          subst hqq
          exact absurd hcond hc
      · intro hfin; simp [JNum.isFinite] at hfin
      · intro msg hmsg
        simp [mainRun, h, hn, JNum.isFinite, hcb] at hmsg
  · exact ⟨by simp [mainRun, h, hn, JNum.isFinite],
      fun _ => by simp [mainRun, h, hn, JNum.isFinite],
      fun msg hmsg => by simp [mainRun, h, hn, JNum.isFinite] at hmsg⟩
  · exact ⟨by simp [mainRun, h, hn, JNum.isFinite],
      fun _ => by simp [mainRun, h, hn, JNum.isFinite],
      fun msg hmsg => by simp [mainRun, h, hn, JNum.isFinite] at hmsg⟩
  · exact ⟨by simp [mainRun, h, hn, JNum.isFinite],
      fun _ => by simp [mainRun, h, hn, JNum.isFinite],
      fun msg hmsg => by simp [mainRun, h, hn, JNum.isFinite] at hmsg⟩

/-- Witness for C2: `current.value = 23.4` triggers exactly one dispatch
attempt. -/
theorem alert_threshold_c2_witness :
    (mainRun exAlert "ts" "now" "base" (.ok ())).alerts.length = 1 :=
  (alert_threshold_c2 exAlert "ts" "now" "base" (.ok ()) (by rfl)).1.mpr
    ⟨117/5, by rfl, by norm_num⟩

/-- A valid snapshot whose raw value is the double `10^21` (far above the
26 °C bound, so the alert fires). -/
def exBig : JVal :=
  .obj [("current", .obj [("value", .num (.finite (1000000000000000000000 : ℚ))),
                          ("ts", .num (.finite 1))])]

/-- Counterexample to C2 as stated: at raw value `10^21` the alert is
dispatched, but the message interpolates `toFixed(2)` of `10^21`, which
is the exponential-notation string `1e+21` — not a rendering to 2 decimal
places. -/
theorem alert_threshold_c2_counterexample :
    (mainRun exBig "ts" "now" "base" (.ok ())).alerts =
      [alertContent (1000000000000000000000 : ℚ) "ts"] ∧
    toFixed2 (1000000000000000000000 : ℚ) = "1e+21" ∧
    twoDecStr (toFixed2 (1000000000000000000000 : ℚ)) = false := by
  refine ⟨?_, toFixed2_1e21, by rw [toFixed2_1e21]; rfl⟩
  have hv : validateV2 exBig = true := by rfl
  have hn : rawCurrentValue exBig = .finite (1000000000000000000000 : ℚ) := rfl
  have hcb : ((JNum.finite (1000000000000000000000 : ℚ)).ltNum 24 ||
      (JNum.finite (1000000000000000000000 : ℚ)).gtNum 26) = true := by
    simp [JNum.ltNum, JNum.gtNum]
    norm_num
  simp [mainRun, hv, hn, JNum.isFinite, hcb, JNum.toQ]

/-!
## C9 — the offset transform is not idempotent
-/

/-- The transform applied to one object entry (the three-way branch of the
`minusOneDeg` loop body). -/
def entryT (k : String) (v : JVal) : JVal :=
  if k = "value" ∧ v.isFiniteNum = true then offsetLeaf v
  else if v.objlike then minusOneDeg v else v

theorem modFields_cons (k : String) (v : JVal) (r : List (String × JVal)) :
    modFields ((k, v) :: r) = (k, entryT k v) :: modFields r := rfl

theorem jsize_pos (v : JVal) : 1 ≤ jsize v := by
  cases v <;> simp [jsize]

/-- Strong induction on the key-independent size of a document. -/
theorem jvalStrongInd {P : JVal → Prop}
    (step : ∀ v, (∀ w, jsize w < jsize v → P w) → P v) : ∀ v, P v := by
  have H : ∀ n, ∀ v : JVal, jsize v ≤ n → P v := by
    intro n
    induction n with
    | zero =>
        intro v hv
        exact absurd hv (by have := jsize_pos v; omega)
    | succ n ih =>
        intro v hv
        exact step v (fun w hw => ih w (by omega))
  exact fun v => H (jsize v) v le_rfl

theorem log2_eq {r : ℚ} {n : ℤ} (h0 : 0 < r) (h1 : (2:ℚ) ^ n ≤ r) (h2 : r < (2:ℚ) ^ (n + 1)) :
    Int.log 2 r = n := by
  have ha : n ≤ Int.log 2 r := (Int.zpow_le_iff_le_log (by norm_num) h0).mp (by exact_mod_cast h1)
  have hb : Int.log 2 r < n + 1 := (Int.lt_zpow_iff_log_lt (by norm_num) h0).mp (by exact_mod_cast h2)
  omega

theorem flRound_int_val (q : ℚ) (hq : q ≠ 0) (M : ℤ)
    (hs : |q| * (2:ℚ) ^ (-flExp q) = (M : ℚ)) :
    flRound q = (if q < 0 then (-1:ℚ) else 1) * M * (2:ℚ) ^ flExp q := by
  rw [flRound, if_neg hq]
  simp only [hs, Int.floor_intCast, sub_self]
  norm_num

theorem flRound_half_val (q : ℚ) (hq : q ≠ 0) (F : ℤ) (hodd : ¬ 2 ∣ F)
    (hs : |q| * (2:ℚ) ^ (-flExp q) = (F : ℚ) + 1/2) :
    flRound q = (if q < 0 then (-1:ℚ) else 1) * ((F : ℚ) + 1) * (2:ℚ) ^ flExp q := by
  rw [flRound, if_neg hq]
  simp only [hs]
  have hfl : ⌊(F:ℚ) + 1/2⌋ = F := by
    rw [Int.floor_eq_iff] <;> norm_num
  rw [hfl]
  have hr : ((F:ℚ) + 1/2 - F) = 1/2 := by ring
  rw [hr]
  simp [hodd]

/-- Integers up to `2^53` are binary64 values: rounding fixes them. -/
theorem flRound_intCast (n : ℤ) (h : |n| < 2 ^ 53) : flRound (n : ℚ) = (n : ℚ) := by
  rcases eq_or_ne n 0 with rfl | hn
  · simp [flRound]
  · have hcast : ((n:ℚ)) ≠ 0 := Int.cast_ne_zero.mpr hn
    have habs1 : (1:ℤ) ≤ |n| := Int.one_le_abs hn
    have hpos : (0:ℚ) < |(n:ℚ)| := abs_pos.mpr hcast
    have habsQ : |(n:ℚ)| = ((|n| : ℤ) : ℚ) := by push_cast; rfl
    have hL0 : 0 ≤ Int.log 2 |(n:ℚ)| := by
      have := (Int.zpow_le_iff_le_log (b := 2) (by norm_num) hpos).mp
        (by rw [habsQ]; show (2:ℚ)^(0:ℤ) ≤ _; rw [zpow_zero]; exact_mod_cast habs1)
      exact this
    have hL53 : Int.log 2 |(n:ℚ)| < 53 := by
      have := (Int.lt_zpow_iff_log_lt (b := 2) (by norm_num) hpos).mp
        (by rw [habsQ]; show _ < (2:ℚ)^(53:ℤ); exact_mod_cast h)
      exact this
    have hflExp : flExp (n:ℚ) = Int.log 2 |(n:ℚ)| - 52 := by
      rw [flExp]; omega
    obtain ⟨k, hk⟩ : ∃ k : ℕ, 52 - Int.log 2 |(n:ℚ)| = (k:ℤ) :=
      ⟨(52 - Int.log 2 |(n:ℚ)|).toNat, by omega⟩
    have hs : |(n:ℚ)| * (2:ℚ) ^ (-flExp (n:ℚ)) = ((|n| * 2 ^ k : ℤ) : ℚ) := by
      rw [hflExp, neg_sub, hk, habsQ]
      push_cast
      rw [zpow_natCast]
    have hmain := flRound_int_val (n:ℚ) hcast (|n| * 2 ^ k) hs
    rw [hmain, hflExp]
    have h2 : ((|n| * 2 ^ k : ℤ) : ℚ) * (2:ℚ) ^ (Int.log 2 |(n:ℚ)| - 52) = |(n:ℚ)| := by
      push_cast
      rw [mul_assoc, ← zpow_natCast (2:ℚ) k, ← hk, ← zpow_add₀ (two_ne_zero)]
      have hz : (52 - Int.log 2 |(n:ℚ)|) + (Int.log 2 |(n:ℚ)| - 52) = 0 := by ring
      rw [hz, zpow_zero, mul_one]
    rw [mul_assoc, h2]
    by_cases hneg : (n:ℚ) < 0
    · rw [if_pos hneg, abs_of_neg hneg]; ring
    · rw [if_neg hneg, abs_of_nonneg (not_lt.mp hneg)]; ring

/-- Integers are fixed by 2-decimal rounding. -/
theorem round2_intCast (n : ℤ) : round2 (n : ℚ) = (n : ℚ) := by
  rw [round2]
  have hhalf : ⌊(1:ℚ)/2⌋ = 0 := by norm_num
  by_cases hneg : (n:ℚ) < 0
  · rw [if_pos hneg]
    have : (-(n:ℚ)) * 100 + 1/2 = ((-100 * n : ℤ) : ℚ) + 1/2 := by push_cast; ring
    rw [this, Int.floor_int_add, hhalf]
    push_cast; ring
  · rw [if_neg hneg]
    have : ((n:ℚ)) * 100 + 1/2 = ((100 * n : ℤ) : ℚ) + 1/2 := by push_cast; ring
    rw [this, Int.floor_int_add, hhalf]
    push_cast; ring

/-- On integers of magnitude up to `2^52 + 1` the whole
`Number((v - 1).toFixed(2))` pipeline is exact: it subtracts one. -/
theorem offsetQ_int (n : ℤ) (h : |n| ≤ 2 ^ 52 + 1) : offsetQ (n : ℚ) = (n : ℚ) - 1 := by
  have hb : |n - 1| < 2 ^ 53 := by
    have h1 : |n - 1| ≤ |n| + 1 := by
      calc |n - 1| ≤ |n| + |(-1 : ℤ)| := by rw [sub_eq_add_neg]; exact abs_add n (-1)
        _ = |n| + 1 := by norm_num
    have h2 : (2:ℤ) ^ 52 + 2 < 2 ^ 53 := by norm_num
    omega
  have hsub : ((n:ℚ)) - 1 = (((n - 1 : ℤ)) : ℚ) := by push_cast; ring
  simp only [offsetQ]
  rw [hsub, flRound_intCast (n - 1) hb]
  rw [if_neg ?hlt]
  case hlt =>
    intro hcon
    have habsQ : |(((n - 1 : ℤ)) : ℚ)| = ((|n - 1| : ℤ) : ℚ) := by push_cast; rfl
    rw [habsQ] at hcon
    have hsmall : ((|n - 1| : ℤ) : ℚ) < (10:ℚ)^21 := by
      have hz : (|n - 1| : ℤ) < 10 ^ 21 := by
        have : (2:ℤ) ^ 53 < 10 ^ 21 := by norm_num
        omega
      exact_mod_cast lt_of_lt_of_le (by exact_mod_cast hz) (le_refl _)
    linarith
  rw [round2_intCast, flRound_intCast (n - 1) hb]

/-- `offsetQ` on a rational that is an integer of magnitude `≤ 2^52 + 1`. -/
theorem offsetQ_smallInt (q : ℚ) (hden : q.den = 1) (hnum : |q.num| ≤ 2 ^ 52 + 1) :
    offsetQ q = q - 1 := by
  have hq : ((q.num : ℚ)) = q := by exact_mod_cast (Rat.den_eq_one_iff q).mp hden
  rw [← hq, offsetQ_int q.num hnum]

/-- Subtracting one from an integer-valued rational, on `num`/`den`. -/
theorem int_sub_one (q : ℚ) (h : q.den = 1) :
    (q - 1).den = 1 ∧ (q - 1).num = q.num - 1 := by
  have hq : ((q.num : ℚ)) = q := by exact_mod_cast (Rat.den_eq_one_iff q).mp h
  have hs : q - 1 = (((q.num - 1 : ℤ)) : ℚ) := by push_cast; rw [hq]
  rw [hs, Rat.den_intCast, Rat.num_intCast]
  exact ⟨rfl, rfl⟩

theorem offsetQ_25 : offsetQ (25 : ℚ) = 24 := by
  have h := offsetQ_int 25 (by norm_num)
  norm_num at h
  exact h

theorem log2_sub1_1e16 : Int.log 2 ((9999999999999999 : ℚ)) = 53 := by
  apply log2_eq (by norm_num)
  · show (2:ℚ) ^ (53:ℤ) ≤ _
    norm_num
  · show (9999999999999999 : ℚ) < (2:ℚ) ^ (53 + 1 : ℤ)
    norm_num

theorem flExp_sub1_1e16 : flExp (9999999999999999 : ℚ) = 1 := by
  rw [flExp]
  rw [show |(9999999999999999 : ℚ)| = 9999999999999999 from by norm_num]
  rw [log2_sub1_1e16]
  norm_num

/-- `1e16 - 1` scaled by the ulp `2` is the odd integer `4999999999999999`
plus one half: the tie rounds to the even candidate above, back to `1e16`
— the absorption the counterexample rests on. -/
theorem flRound_sub1_1e16 : flRound (9999999999999999 : ℚ) = 10000000000000000 := by
  have h := flRound_half_val (9999999999999999 : ℚ) (by norm_num) 4999999999999999
    (by decide)
    (by rw [flExp_sub1_1e16]; norm_num)
  rw [h, flExp_sub1_1e16]
  norm_num

theorem log2_1e16 : Int.log 2 ((10000000000000000 : ℚ)) = 53 := by
  apply log2_eq (by norm_num)
  · show (2:ℚ) ^ (53:ℤ) ≤ _
    norm_num
  · show (10000000000000000 : ℚ) < (2:ℚ) ^ (53 + 1 : ℤ)
    norm_num

theorem flExp_1e16 : flExp (10000000000000000 : ℚ) = 1 := by
  rw [flExp]
  rw [show |(10000000000000000 : ℚ)| = 10000000000000000 from by norm_num]
  rw [log2_1e16]
  norm_num

theorem flRound_1e16 : flRound (10000000000000000 : ℚ) = 10000000000000000 := by
  have h := flRound_int_val (10000000000000000 : ℚ) (by norm_num) 5000000000000000
    (by rw [flExp_1e16]; norm_num)
  rw [h, flExp_1e16]
  norm_num

theorem round2_1e16 : round2 (10000000000000000 : ℚ) = 10000000000000000 := by
  have h := round2_intCast 10000000000000000
  norm_num at h
  exact h

/-- The full pipeline at the double `10^16`: `v - 1` rounds back to
`10^16`, `toFixed(2)` and `Number` return it unchanged. -/
theorem offsetQ_1e16 : offsetQ (10000000000000000 : ℚ) = 10000000000000000 := by
  simp only [offsetQ]
  rw [show (10000000000000000 : ℚ) - 1 = 9999999999999999 from by norm_num]
  rw [flRound_sub1_1e16]
  rw [if_neg (by
    rw [show |(10000000000000000 : ℚ)| = 10000000000000000 from by norm_num]
    norm_num)]
  rw [round2_1e16, flRound_1e16]

/-- Is the leaf a finite number that is an integer of magnitude at most
`B` — the regime where the double subtraction of 1 is exact? -/
def isSmallIntLeaf (B : ℤ) : JVal → Bool
  | .num (.finite q) => decide (q.den = 1 ∧ |q.num| ≤ B)
  | _ => false

mutual
/-- Does the document contain, at any depth, an object entry literally
named `value` holding an integer of magnitude at most `B`? -/
def hasIntVK (B : ℤ) : JVal → Bool
  | .obj fs => hasIntVKFs B fs
  | .arr xs => hasIntVKL B xs
  | _ => false

def hasIntVKFs (B : ℤ) : List (String × JVal) → Bool
  | [] => false
  | (k, v) :: r =>
      (decide (k = "value") && isSmallIntLeaf B v) || hasIntVK B v || hasIntVKFs B r

def hasIntVKL (B : ℤ) : List JVal → Bool
  | [] => false
  | v :: r => hasIntVK B v || hasIntVKL B r
end

theorem c9_fs_ne :
    ∀ fs : List (String × JVal),
      (∀ w, jsize w ≤ jsizeFs fs →
        (hasIntVK (2 ^ 52 + 1) w = true → minusOneDeg w ≠ w)) →
      hasIntVKFs (2 ^ 52 + 1) fs = true → modFields fs ≠ fs := by
  intro fs
  induction fs with
  | nil => intro _ h; rw [hasIntVKFs] at h; exact absurd h (by simp)
  | cons a r ih =>
      intro hIH h
      rcases a with ⟨k, v⟩
      rw [modFields_cons]
      intro heq
      injection heq with h1 h2
      injection h1 with hk1 hX
      rw [hasIntVKFs] at h
      simp only [Bool.or_eq_true, Bool.and_eq_true] at h
      rcases h with (⟨hk, hsm⟩ | hv) | hr
      · have hk' : k = "value" := of_decide_eq_true hk
        rcases v with _ | b | n | st | xs | gs <;> simp [isSmallIntLeaf] at hsm
        rcases n with q | _ | _ | _ <;> try simp [isSmallIntLeaf] at hsm
        rw [entryT, if_pos ⟨hk', rfl⟩, offsetLeaf] at hX
        injection hX with hn
        injection hn with hq
        rw [offsetQ_smallInt q hsm.1 hsm.2] at hq
        linarith
      · have hobj : v.objlike = true := by
          rcases v with _ | _ | _ | _ | _ | _ <;>
            first
            | rfl
            | simp [hasIntVK] at hv
        have hfinv : v.isFiniteNum = false := by
          rcases v with _ | _ | _ | _ | _ | _ <;> simp [JVal.objlike] at hobj <;> rfl
        have hne := hIH v (by rw [jsizeFs]; omega) hv
        rw [entryT,
          if_neg (by rintro ⟨_, hf⟩; rw [hfinv] at hf; exact absurd hf (by simp)),
          if_pos hobj] at hX
        exact hne hX
      · exact ih (fun w hw => hIH w (by rw [jsizeFs]; omega)) hr h2

theorem c9_l_ne :
    ∀ xs : List JVal,
      (∀ w, jsize w ≤ jsizeL xs →
        (hasIntVK (2 ^ 52 + 1) w = true → minusOneDeg w ≠ w)) →
      hasIntVKL (2 ^ 52 + 1) xs = true → modList xs ≠ xs := by
  intro xs
  induction xs with
  | nil => intro _ h; rw [hasIntVKL] at h; exact absurd h (by simp)
  | cons v r ih =>
      intro hIH h
      rw [modList]
      intro heq
      injection heq with h1 h2
      rw [hasIntVKL] at h
      simp only [Bool.or_eq_true] at h
      rcases h with hv | hr
      · exact hIH v (by rw [jsizeL]; omega) hv h1
      · exact ih (fun w hw => hIH w (by rw [jsizeL]; omega)) hr h2

theorem minusOneDeg_ne_self :
    ∀ e, hasIntVK (2 ^ 52 + 1) e = true → minusOneDeg e ≠ e := by
  refine jvalStrongInd ?_
  intro v ih h
  rcases v with _ | b | n | st | xs | fs
  · simp [hasIntVK] at h
  · simp [hasIntVK] at h
  · simp [hasIntVK] at h
  · simp [hasIntVK] at h
  · rw [minusOneDeg]
    intro heq
    injection heq with hxs
    exact c9_l_ne xs (fun w hw => ih w (by rw [jsize]; omega))
      (by rwa [hasIntVK] at h) hxs
  · rw [minusOneDeg]
    intro heq
    injection heq with hfs
    exact c9_fs_ne fs (fun w hw => ih w (by rw [jsize]; omega))
      (by rwa [hasIntVK] at h) hfs

theorem c9B_fs :
    ∀ fs : List (String × JVal),
      (∀ w, jsize w ≤ jsizeFs fs →
        (hasIntVK (2 ^ 52) w = true → hasIntVK (2 ^ 52 + 1) (minusOneDeg w) = true)) →
      hasIntVKFs (2 ^ 52) fs = true → hasIntVKFs (2 ^ 52 + 1) (modFields fs) = true := by
  intro fs
  induction fs with
  | nil => intro _ h; exact h
  | cons a r ih =>
      intro hIH h
      rcases a with ⟨k, v⟩
      rw [modFields_cons, hasIntVKFs]
      rw [hasIntVKFs] at h
      simp only [Bool.or_eq_true, Bool.and_eq_true] at h ⊢
      rcases h with (⟨hk, hsm⟩ | hv) | hr
      · have hk' : k = "value" := of_decide_eq_true hk
        rcases v with _ | b | n | st | xs | gs <;> simp [isSmallIntLeaf] at hsm
        rcases n with q | _ | _ | _ <;> try simp [isSmallIntLeaf] at hsm
        left; left
        refine ⟨hk, ?_⟩
        rw [entryT, if_pos ⟨hk', rfl⟩, offsetLeaf]
        rw [offsetQ_smallInt q hsm.1 (le_trans hsm.2 (by norm_num))]
        obtain ⟨hd, hnm⟩ := int_sub_one q hsm.1
        simp only [isSmallIntLeaf, decide_eq_true_eq]
        refine ⟨hd, ?_⟩
        rw [hnm]
        rcases abs_le.mp hsm.2 with ⟨ha, hb⟩
        rw [abs_le]
        constructor <;> linarith
      · have hobj : v.objlike = true := by
          rcases v with _ | _ | _ | _ | _ | _ <;>
            first
            | rfl
            | simp [hasIntVK] at hv
        have hfinv : v.isFiniteNum = false := by
          rcases v with _ | _ | _ | _ | _ | _ <;> simp [JVal.objlike] at hobj <;> rfl
        left; right
        rw [entryT,
          if_neg (by rintro ⟨_, hf⟩; rw [hfinv] at hf; exact absurd hf (by simp)),
          if_pos hobj]
        exact hIH v (by rw [jsizeFs]; omega) hv
      · right
        exact ih (fun w hw => hIH w (by rw [jsizeFs]; omega)) hr

theorem c9B_l :
    ∀ xs : List JVal,
      (∀ w, jsize w ≤ jsizeL xs →
        (hasIntVK (2 ^ 52) w = true → hasIntVK (2 ^ 52 + 1) (minusOneDeg w) = true)) →
      hasIntVKL (2 ^ 52) xs = true → hasIntVKL (2 ^ 52 + 1) (modList xs) = true := by
  intro xs
  induction xs with
  | nil => intro _ h; exact h
  | cons v r ih =>
      intro hIH h
      rw [modList, hasIntVKL]
      rw [hasIntVKL] at h
      simp only [Bool.or_eq_true] at h ⊢
      rcases h with hv | hr
      · exact Or.inl (hIH v (by rw [jsizeL]; omega) hv)
      · exact Or.inr (ih (fun w hw => hIH w (by rw [jsizeL]; omega)) hr)

theorem hasIntVK_minusOneDeg :
    ∀ d, hasIntVK (2 ^ 52) d = true → hasIntVK (2 ^ 52 + 1) (minusOneDeg d) = true := by
  refine jvalStrongInd ?_
  intro v ih h
  rcases v with _ | b | n | st | xs | fs
  · exact h
  · exact h
  · exact h
  · exact h
  · rw [minusOneDeg, hasIntVK]
    exact c9B_l xs (fun w hw => ih w (by rw [jsize]; omega)) (by rwa [hasIntVK] at h)
  · rw [minusOneDeg, hasIntVK]
    exact c9B_fs fs (fun w hw => ih w (by rw [jsize]; omega)) (by rwa [hasIntVK] at h)

/-- C9 (amended): on any document containing at least one object entry
literally named `value` bound to an integer of magnitude at most `2^52` —
the regime where subtracting 1 in binary64 is exact — applying the offset
transform twice gives a different document than applying it once.  (The
unrestricted claim is false: at the double `10^16` the subtraction
absorbs the 1 and the transform is the identity — see the
counterexample.) -/
theorem offset_not_idempotent_c9 (d : JVal) (h : hasIntVK (2 ^ 52) d = true) :
    minusOneDeg (minusOneDeg d) ≠ minusOneDeg d :=
  minusOneDeg_ne_self (minusOneDeg d) (hasIntVK_minusOneDeg d h)

/-- A one-entry document with a small-integer `value`. -/
def exC9 : JVal := .obj [("value", .num (.finite 25))]

/-- Witness for C9 at a concrete document. -/
theorem offset_not_idempotent_c9_witness :
    minusOneDeg (minusOneDeg exC9) ≠ minusOneDeg exC9 :=
  offset_not_idempotent_c9 exC9 (by decide)

/-- A document whose `value` is the double `10^16`. -/
def exC9big : JVal := .obj [("value", .num (.finite (10000000000000000 : ℚ)))]

/-- Counterexample to C9 as stated: `exC9big` holds a finite-number
`value` entry, yet the transform is idempotent on it — at `10^16` the
binary64 subtraction `v - 1` rounds back to `10^16` (a tie resolved to
the even candidate), so one application is already the identity and twice
equals once. -/
theorem offset_not_idempotent_c9_counterexample :
    hasFVK exC9big = true ∧
    minusOneDeg (minusOneDeg exC9big) = minusOneDeg exC9big := by
  have h1 : minusOneDeg exC9big = exC9big := by
    show minusOneDeg (.obj [("value", .num (.finite (10000000000000000 : ℚ)))]) = _
    rw [minusOneDeg, modFields_cons, entryT, if_pos ⟨rfl, rfl⟩, offsetLeaf, offsetQ_1e16]
    rfl
  exact ⟨rfl, by rw [h1]; exact h1⟩

/-!
## C7 — pointwise description of the offset transform
-/

theorem getPath_nil (v : JVal) : getPath v [] = some v := by cases v <;> rfl

theorem getPath_obj_key (fs : List (String × JVal)) (k : String) (p : List PathElem) :
    getPath (.obj fs) (.key k :: p) =
      (match (JVal.obj fs).lookup k with
       | some v => getPath v p
       | none => none) := rfl

theorem getPath_obj_idx (fs : List (String × JVal)) (i : ℕ) (p : List PathElem) :
    getPath (.obj fs) (.idx i :: p) = none := rfl

theorem getPath_arr_idx (xs : List JVal) (i : ℕ) (p : List PathElem) :
    getPath (.arr xs) (.idx i :: p) =
      (match xs.get? i with
       | some v => getPath v p
       | none => none) := rfl

theorem getPath_arr_key (xs : List JVal) (k : String) (p : List PathElem) :
    getPath (.arr xs) (.key k :: p) = none := rfl

theorem getPath_leaf_cons (d : JVal) (hd : d.objlike = false) (e : PathElem)
    (p : List PathElem) : getPath d (e :: p) = none := by
  rcases d <;> rcases e <;> first | rfl | simp [JVal.objlike] at hd

theorem minusOneDeg_leaf (d : JVal) (hd : d.objlike = false) : minusOneDeg d = d := by
  rcases d <;> first | rfl | simp [JVal.objlike] at hd

theorem offsetLeaf_eq_self {v : JVal} (h : v.isFiniteNum = false) : offsetLeaf v = v := by
  rcases v with _ | _ | n | _ | _ | _ <;>
    first
    | rfl
    | (rcases n with q | _ | _ | _ <;> first | rfl | simp [JVal.isFiniteNum] at h)

theorem endsWithValue_nil : endsWithValue [] = false := rfl

theorem endsWithValue_cons (e : PathElem) {p : List PathElem} (hp : p ≠ []) :
    endsWithValue (e :: p) = endsWithValue p := by
  rw [endsWithValue, endsWithValue]
  rcases p with _ | ⟨e', p'⟩
  · exact absurd rfl hp
  · rw [List.getLast?_cons_cons]

theorem jsizeFs_mem_bound :
    ∀ (fs : List (String × JVal)) (k : String) (v : JVal),
      (k, v) ∈ fs → jsize v < 1 + jsizeFs fs := by
  intro fs
  induction fs with
  | nil => intro k v h; simp at h
  | cons a r ih =>
      intro k v h
      rcases a with ⟨k', v'⟩
      rcases List.mem_cons.mp h with heq | hm
      · cases heq; rw [jsizeFs]; omega
      · have := ih k v hm; rw [jsizeFs]; omega

theorem jsizeL_mem_bound :
    ∀ (xs : List JVal) (v : JVal), v ∈ xs → jsize v < 1 + jsizeL xs := by
  intro xs
  induction xs with
  | nil => intro v h; simp at h
  | cons x r ih =>
      intro v h
      rcases List.mem_cons.mp h with heq | hm
      · cases heq; rw [jsizeL]; omega
      · have := ih v hm; rw [jsizeL]; omega

theorem lookup_jsize {fs : List (String × JVal)} {k : String} {v : JVal}
    (hl : (JVal.obj fs).lookup k = some v) : jsize v < jsize (JVal.obj fs) := by
  unfold JVal.lookup at hl
  dsimp only at hl
  rcases hfind : fs.find? (fun kv => kv.1 == k) with _ | kv
  · rw [hfind] at hl; simp at hl
  · rw [hfind] at hl
    simp at hl
    rcases kv with ⟨a, b⟩
    cases hl
    rw [jsize]
    exact jsizeFs_mem_bound fs a b (List.mem_of_find?_eq_some hfind)

theorem get?_jsize {xs : List JVal} {i : ℕ} {v : JVal}
    (hg : xs.get? i = some v) : jsize v < jsize (JVal.arr xs) := by
  rw [jsize]
  exact jsizeL_mem_bound xs v (List.get?_mem hg)

theorem modFields_find? :
    ∀ (fs : List (String × JVal)) (k : String),
      (modFields fs).find? (fun kv => kv.1 == k) =
        (fs.find? (fun kv => kv.1 == k)).map (fun kv => (kv.1, entryT k kv.2)) := by
  intro fs k
  induction fs with
  | nil => rfl
  | cons a r ih =>
      rcases a with ⟨k', v⟩
      rw [modFields_cons]
      by_cases hk : (k' == k) = true
      · have hk2 : k' = k := by simpa using hk
        subst hk2
        rw [List.find?_cons_of_pos _ (by simpa using hk),
          List.find?_cons_of_pos _ (by simpa using hk)]
        rfl
      · rw [List.find?_cons_of_neg _ (by simpa using hk),
          List.find?_cons_of_neg _ (by simpa using hk), ih]

theorem modFields_lookup (fs : List (String × JVal)) (k : String) :
    (JVal.obj (modFields fs)).lookup k =
      ((JVal.obj fs).lookup k).map (entryT k) := by
  unfold JVal.lookup
  dsimp only
  rw [modFields_find?]
  cases fs.find? (fun kv => kv.1 == k) <;> rfl

theorem modList_get? :
    ∀ (xs : List JVal) (i : ℕ),
      (modList xs).get? i = (xs.get? i).map minusOneDeg := by
  intro xs
  induction xs with
  | nil => intro i; cases i <;> rfl
  | cons v r ih =>
      intro i
      cases i with
      | zero => rfl
      | succ n => rw [modList]; simpa using ih n

theorem c7_leaf (d : JVal) (hdl : d.objlike = false) (p : List PathElem) :
    (getPath (minusOneDeg d) p = none ↔ getPath d p = none) ∧
    (∀ v, getPath d p = some v → v.objlike = false →
      getPath (minusOneDeg d) p =
        some (if endsWithValue p = true then offsetLeaf v else v)) := by
  rw [minusOneDeg_leaf d hdl]
  refine ⟨Iff.rfl, ?_⟩
  intro v hv hvl
  rcases p with _ | ⟨e, p'⟩
  · rw [getPath_nil] at hv ⊢
    simpa [endsWithValue_nil] using hv
  · rw [getPath_leaf_cons d hdl] at hv
    exact absurd hv (by simp)

/-- C7: the offset transform, pointwise.  Structure is preserved (a path
resolves after the transform exactly when it resolved before), and every
leaf reached by a path is unchanged unless the path's last step is an
object key literally named `value` and the leaf is a finite number, in
which case the leaf becomes `Number((v - 1).toFixed(2))` of that number
(`offsetLeaf`: minus 1 in double arithmetic, rounded to 2 decimal places
below the `10^21` fallback); in particular the transform recurses into
nested objects and arrays, and non-finite numbers, non-numeric `value`
fields, and keys not named `value` pass through unchanged. -/
theorem minusOneDeg_paths_c7 :
    ∀ (d : JVal) (p : List PathElem),
      (getPath (minusOneDeg d) p = none ↔ getPath d p = none) ∧
      (∀ v, getPath d p = some v → v.objlike = false →
        getPath (minusOneDeg d) p =
          some (if endsWithValue p = true then offsetLeaf v else v)) := by
  refine jvalStrongInd ?_
  intro d ih p
  rcases d with _ | b | n | st | xs | fs
  · exact c7_leaf .null rfl p
  · exact c7_leaf (.bool b) rfl p
  · exact c7_leaf (.num n) rfl p
  · exact c7_leaf (.str st) rfl p
  · -- arrays
    rcases p with _ | ⟨e, p'⟩
    · refine ⟨by rw [minusOneDeg, getPath_nil, getPath_nil]; simp, ?_⟩
      intro v hv hvl
      rw [getPath_nil] at hv
      injection hv with hv'
      subst hv'
      simp [JVal.objlike] at hvl
    · rcases e with k | i
      · rw [minusOneDeg, getPath_arr_key, getPath_arr_key]
        exact ⟨Iff.rfl, fun v hv _ => absurd hv (by simp)⟩
      · rw [minusOneDeg, getPath_arr_idx, getPath_arr_idx, modList_get?]
        rcases hg : xs.get? i with _ | w
        · exact ⟨by simp, fun v hv _ => absurd hv (by simp)⟩
        · simp only [Option.map_some']
          have hw := ih w (get?_jsize hg)
          refine ⟨(hw p').1, ?_⟩
          intro v hv hvl
          rcases p' with _ | ⟨e2, p''⟩
          · rw [getPath_nil] at hv
            injection hv with hv'
            subst hv'
            rw [minusOneDeg_leaf _ hvl, getPath_nil]
            rfl
          · rw [endsWithValue_cons _ (by simp)]
            exact (hw _).2 v hv hvl
  · -- objects
    rcases p with _ | ⟨e, p'⟩
    · refine ⟨by rw [minusOneDeg, getPath_nil, getPath_nil]; simp, ?_⟩
      intro v hv hvl
      rw [getPath_nil] at hv
      injection hv with hv'
      subst hv'
      simp [JVal.objlike] at hvl
    · rcases e with k | i
      case idx =>
        rw [minusOneDeg, getPath_obj_idx, getPath_obj_idx]
        exact ⟨Iff.rfl, fun v hv _ => absurd hv (by simp)⟩
      case key =>
        rw [minusOneDeg, getPath_obj_key, getPath_obj_key, modFields_lookup]
        rcases hl : (JVal.obj fs).lookup k with _ | w
        · exact ⟨by simp, fun v hv _ => absurd hv (by simp)⟩
        · simp only [Option.map_some']
          by_cases hwo : w.objlike = true
          · have hwfin : w.isFiniteNum = false := by
              rcases w <;> simp [JVal.objlike] at hwo <;> rfl
            rw [entryT,
              if_neg (by rintro ⟨_, hf⟩; rw [hwfin] at hf; exact absurd hf (by simp)),
              if_pos hwo]
            have hw := ih w (lookup_jsize hl)
            refine ⟨(hw p').1, ?_⟩
            intro v hv hvl
            rcases p' with _ | ⟨e2, p''⟩
            · rw [getPath_nil] at hv
              injection hv with hv'
              subst hv'
              rw [hvl] at hwo
              exact absurd hwo (by simp)
            · rw [endsWithValue_cons _ (by simp)]
              exact (hw _).2 v hv hvl
          · have hwl : w.objlike = false := by simpa using hwo
            by_cases hkv : k = "value" ∧ w.isFiniteNum = true
            · rw [entryT, if_pos hkv]
              obtain ⟨hk, hwf⟩ := hkv
              rcases w with _ | _ | n | _ | _ | _ <;> simp [JVal.isFiniteNum] at hwf
              rcases n with q | _ | _ | _ <;> try simp [JVal.isFiniteNum] at hwf
              rw [offsetLeaf]
              rcases p' with _ | ⟨e2, p''⟩
              · refine ⟨by rw [getPath_nil, getPath_nil]; simp, ?_⟩
                intro v hv hvl
                rw [getPath_nil] at hv ⊢
                injection hv with hv'
                subst hv'
                subst hk
                simp [endsWithValue, offsetLeaf]
              · refine ⟨?_, ?_⟩
                · rw [getPath_leaf_cons _ (by rfl), getPath_leaf_cons _ (by rfl)]
                · intro v hv _
                  rw [getPath_leaf_cons _ (by rfl)] at hv
                  exact absurd hv (by simp)
            · rw [entryT, if_neg hkv, if_neg (by rw [hwl]; simp)]
              refine ⟨Iff.rfl, ?_⟩
              intro v hv hvl
              rcases p' with _ | ⟨e2, p''⟩
              · rw [getPath_nil] at hv ⊢
                injection hv with hv'
                subst hv'
                by_cases hk : k = "value"
                · subst hk
                  have hwfin : w.isFiniteNum = false := by
                    by_contra hc
                    exact hkv ⟨rfl, by simpa using hc⟩
                  simp [endsWithValue, offsetLeaf_eq_self hwfin]
                · simp [endsWithValue, hk]
              · rw [getPath_leaf_cons w hwl] at hv
                exact absurd hv (by simp)

/-- Witness for C7: in `{"value": 25}`, the path `value` maps to
`25 - 1 = 24` after the transform. -/
theorem minusOneDeg_paths_c7_witness :
    getPath (minusOneDeg exC9) [.key "value"] =
      some (.num (.finite 24)) := by
  have h := (minusOneDeg_paths_c7 exC9 [.key "value"]).2 (.num (.finite 25))
    (by rfl) (by rfl)
  simpa [endsWithValue, offsetLeaf, offsetQ_25] using h

/-!
## C10 — `esc` leaves no raw angle bracket and never corrupts an entity
-/

/-- The image of one source character under the three replaces (because
`&` is replaced first, later replaces never touch the introduced `&`). -/
def escChar (c : Char) : List Char :=
  if c = '&' then ['&', 'a', 'm', 'p', ';']
  else if c = '<' then ['&', 'l', 't', ';']
  else if c = '>' then ['&', 'g', 't', ';']
  else [c]

theorem replaceAll_cons (c : Char) (r : List Char) (x : Char) (l : List Char) :
    replaceAll c r (x :: l) = (if x = c then r else [x]) ++ replaceAll c r l := by
  rw [replaceAll, replaceAll, List.flatMap_cons]

theorem replaceAll_nil (c : Char) (r : List Char) : replaceAll c r [] = [] := rfl

theorem replaceAll_append (c : Char) (r : List Char) (l1 l2 : List Char) :
    replaceAll c r (l1 ++ l2) = replaceAll c r l1 ++ replaceAll c r l2 := by
  rw [replaceAll, replaceAll, replaceAll, List.flatMap_append]

theorem esc_data (l : List Char) :
    replaceAll '>' ['&', 'g', 't', ';']
      (replaceAll '<' ['&', 'l', 't', ';']
        (replaceAll '&' ['&', 'a', 'm', 'p', ';'] l)) = l.flatMap escChar := by
  induction l with
  | nil => rfl
  | cons x t ih =>
      rw [replaceAll_cons, replaceAll_append, replaceAll_append, ih,
        List.flatMap_cons]
      have hstep : replaceAll '>' ['&', 'g', 't', ';']
          (replaceAll '<' ['&', 'l', 't', ';']
            (if x = '&' then ['&', 'a', 'm', 'p', ';'] else [x])) = escChar x := by
        by_cases h1 : x = '&'
        · subst h1; rfl
        · rw [if_neg h1]
          by_cases h2 : x = '<'
          · subst h2; rfl
          · by_cases h3 : x = '>'
            · subst h3; rfl
            · rw [replaceAll_cons, replaceAll_nil, if_neg h2, List.append_nil,
                replaceAll_cons, replaceAll_nil, if_neg h3, List.append_nil,
                escChar, if_neg h1, if_neg h2, if_neg h3]
      rw [hstep]

/-- Well-escaped text: a sequence of safe characters and whole entities. -/
inductive EscGood : List Char → Prop where
  | nil : EscGood []
  | safe (c : Char) (r : List Char) (h1 : c ≠ '&') (h2 : c ≠ '<') (h3 : c ≠ '>')
      (hr : EscGood r) : EscGood (c :: r)
  | amp (r : List Char) (hr : EscGood r) :
      EscGood ('&' :: 'a' :: 'm' :: 'p' :: ';' :: r)
  | elt (r : List Char) (hr : EscGood r) :
      EscGood ('&' :: 'l' :: 't' :: ';' :: r)
  | egt (r : List Char) (hr : EscGood r) :
      EscGood ('&' :: 'g' :: 't' :: ';' :: r)

theorem escGood_flatMap (l : List Char) : EscGood (l.flatMap escChar) := by
  induction l with
  | nil => exact .nil
  | cons x t ih =>
      rw [List.flatMap_cons, escChar]
      by_cases h1 : x = '&'
      · subst h1; rw [if_pos rfl]; exact .amp _ ih
      · rw [if_neg h1]
        by_cases h2 : x = '<'
        · subst h2; rw [if_pos rfl]; exact .elt _ ih
        · rw [if_neg h2]
          by_cases h3 : x = '>'
          · subst h3; rw [if_pos rfl]; exact .egt _ ih
          · rw [if_neg h3]; exact .safe x _ h1 h2 h3 ih

theorem escGood_no_angle {l : List Char} (h : EscGood l) : '<' ∉ l ∧ '>' ∉ l := by
  induction h with
  | nil => simp
  | safe c r h1 h2 h3 hr ih =>
      refine ⟨fun hm => ?_, fun hm => ?_⟩
      · rcases List.mem_cons.mp hm with heq | hm2
        · exact h2 heq.symm
        · exact ih.1 hm2
      · rcases List.mem_cons.mp hm with heq | hm2
        · exact h3 heq.symm
        · exact ih.2 hm2
  | amp r hr ih =>
      refine ⟨fun hm => ?_, fun hm => ?_⟩ <;> simp at hm <;>
        first | exact ih.1 hm | exact ih.2 hm
  | elt r hr ih =>
      refine ⟨fun hm => ?_, fun hm => ?_⟩ <;> simp at hm <;>
        first | exact ih.1 hm | exact ih.2 hm
  | egt r hr ih =>
      refine ⟨fun hm => ?_, fun hm => ?_⟩ <;> simp at hm <;>
        first | exact ih.1 hm | exact ih.2 hm

theorem escGood_amp_entity {l : List Char} (h : EscGood l) :
    ∀ u w, l = u ++ '&' :: w →
      (∃ w', w = 'a' :: 'm' :: 'p' :: ';' :: w') ∨
      (∃ w', w = 'l' :: 't' :: ';' :: w') ∨
      (∃ w', w = 'g' :: 't' :: ';' :: w') := by
  induction h with
  | nil => intro u w heq; exact absurd heq (by simp)
  | safe c r h1 h2 h3 hr ih =>
      intro u w heq
      rcases u with _ | ⟨c', u⟩
      · rw [List.nil_append] at heq
        injection heq with hc _
        exact absurd hc h1
      · rw [List.cons_append] at heq
        injection heq with _ heq
        exact ih u w heq
  | amp r hr ih =>
      intro u w heq
      rcases u with _ | ⟨c1, u⟩
      · rw [List.nil_append] at heq
        injection heq with _ hw
        exact Or.inl ⟨r, hw.symm⟩
      rw [List.cons_append] at heq
      injection heq with _ heq
      rcases u with _ | ⟨c2, u⟩
      · injection heq with ha _; exact absurd ha (by decide)
      rw [List.cons_append] at heq
      injection heq with _ heq
      rcases u with _ | ⟨c3, u⟩
      · injection heq with hm _; exact absurd hm (by decide)
      rw [List.cons_append] at heq
      injection heq with _ heq
      rcases u with _ | ⟨c4, u⟩
      · injection heq with hp _; exact absurd hp (by decide)
      rw [List.cons_append] at heq
      injection heq with _ heq
      rcases u with _ | ⟨c5, u⟩
      · injection heq with hs _; exact absurd hs (by decide)
      rw [List.cons_append] at heq
      injection heq with _ heq
      exact ih u w heq
  | elt r hr ih =>
      intro u w heq
      rcases u with _ | ⟨c1, u⟩
      · rw [List.nil_append] at heq
        injection heq with _ hw
        exact Or.inr (Or.inl ⟨r, hw.symm⟩)
      rw [List.cons_append] at heq
      injection heq with _ heq
      rcases u with _ | ⟨c2, u⟩
      · injection heq with ha _; exact absurd ha (by decide)
      rw [List.cons_append] at heq
      injection heq with _ heq
      rcases u with _ | ⟨c3, u⟩
      · injection heq with hm _; exact absurd hm (by decide)
      rw [List.cons_append] at heq
      injection heq with _ heq
      rcases u with _ | ⟨c4, u⟩
      · injection heq with hs _; exact absurd hs (by decide)
      rw [List.cons_append] at heq
      injection heq with _ heq
      exact ih u w heq
  | egt r hr ih =>
      intro u w heq
      rcases u with _ | ⟨c1, u⟩
      · rw [List.nil_append] at heq
        injection heq with _ hw
        exact Or.inr (Or.inr ⟨r, hw.symm⟩)
      rw [List.cons_append] at heq
      injection heq with _ heq
      rcases u with _ | ⟨c2, u⟩
      · injection heq with ha _; exact absurd ha (by decide)
      rw [List.cons_append] at heq
      injection heq with _ heq
      rcases u with _ | ⟨c3, u⟩
      · injection heq with hm _; exact absurd hm (by decide)
      rw [List.cons_append] at heq
      injection heq with _ heq
      rcases u with _ | ⟨c4, u⟩
      · injection heq with hs _; exact absurd hs (by decide)
      rw [List.cons_append] at heq
      injection heq with _ heq
      exact ih u w heq

/-- C10: the output of `esc` contains no literal `<` or `>`, and every `&`
in it begins one of the entities `&amp;`, `&lt;`, `&gt;` (the `&` replace
runs first, so later replaces never corrupt an introduced entity). -/
theorem esc_entities_c10 (s : String) :
    ('<' ∉ (esc s).data ∧ '>' ∉ (esc s).data) ∧
    (∀ u w, (esc s).data = u ++ '&' :: w →
      (∃ w', w = 'a' :: 'm' :: 'p' :: ';' :: w') ∨
      (∃ w', w = 'l' :: 't' :: ';' :: w') ∨
      (∃ w', w = 'g' :: 't' :: ';' :: w')) := by
  have hdata : (esc s).data = s.data.flatMap escChar := esc_data s.data
  have hg : EscGood ((esc s).data) := hdata ▸ escGood_flatMap s.data
  exact ⟨escGood_no_angle hg, escGood_amp_entity hg⟩

/-- Witness for C10: in `esc "a<b" = "a&lt;b"`, the single `&` opens the
entity `&lt;`. -/
theorem esc_entities_c10_witness :
    (∃ w', (['l', 't', ';', 'b'] : List Char) = 'a' :: 'm' :: 'p' :: ';' :: w') ∨
    (∃ w', (['l', 't', ';', 'b'] : List Char) = 'l' :: 't' :: ';' :: w') ∨
    (∃ w', (['l', 't', ';', 'b'] : List Char) = 'g' :: 't' :: ';' :: w') :=
  (esc_entities_c10 "a<b").2 ['a'] ['l', 't', ';', 'b'] (by rfl)

/-!
## C6 — ordering of the flattened paths

The key comparator `charsLe` is code-unit lexicographic `≤`; here it is
related to the (Mathlib, `Lex`-based) order on `List Char`, and the
flattened path list is analysed block by block.
-/

theorem charsLe_iff : ∀ u v : List Char, charsLe u v = true ↔ ¬ v < u := by
  intro u
  induction u with
  | nil =>
      intro v
      exact iff_of_true rfl (List.Lex.not_nil_right _ v)
  | cons a as ih =>
      intro v
      rcases v with _ | ⟨b, bs⟩
      · refine iff_of_false (by simp [show charsLe (a :: as) [] = false from rfl]) ?_
        exact fun h => h (List.nil_lt_cons a as)
      · rw [show charsLe (a :: as) (b :: bs) =
          (if a < b then true else if b < a then false else charsLe as bs) from rfl]
        by_cases h1 : a < b
        · rw [if_pos h1]
          refine iff_of_true rfl ?_
          intro hlt
          cases hlt with
          | cons h' => exact absurd h1 (lt_irrefl _)
          | rel h' => exact absurd h1 (lt_asymm h')
        · rw [if_neg h1]
          by_cases h2 : b < a
          · rw [if_pos h2]
            exact iff_of_false (by simp) (fun hn => hn (List.Lex.rel h2))
          · rw [if_neg h2]
            have hab : a = b := le_antisymm (le_of_not_lt h2) (le_of_not_lt h1)
            subst hab
            rw [ih bs]
            exact (not_congr List.Lex.cons_iff).symm

instance : IsTotal (String × JVal) keyRel where
  total a b := by
    rw [keyRel, keyRel, charsLe_iff, charsLe_iff]
    rcases lt_trichotomy a.1.data b.1.data with h | h | h
    · exact Or.inl (fun hc => (lt_asymm h) hc)
    · exact Or.inl (by rw [h]; exact lt_irrefl _)
    · exact Or.inr (fun hc => (lt_asymm h) hc)

instance : IsTrans (String × JVal) keyRel where
  trans a b c hab hbc := by
    rw [keyRel, charsLe_iff] at hab hbc ⊢
    exact fun hca => hbc (lt_of_lt_of_le hca (le_of_not_lt hab))

theorem sortFields_perm (fs : List (String × JVal)) : (sortFields fs).Perm fs :=
  List.perm_insertionSort _ _

theorem sortFields_pairwise (fs : List (String × JVal))
    (hnd : (fs.map Prod.fst).Nodup) :
    (sortFields fs).Pairwise (fun a b => a.1.data < b.1.data) := by
  have hs : (sortFields fs).Pairwise keyRel := List.sorted_insertionSort keyRel fs
  have hnd2 : ((sortFields fs).map Prod.fst).Nodup := by
    rw [List.Perm.nodup_iff ((sortFields_perm fs).map Prod.fst)]
    exact hnd
  have hne : (sortFields fs).Pairwise (fun a b => a.1 ≠ b.1) :=
    List.pairwise_map.mp hnd2
  refine (hs.and hne).imp ?_
  rintro a b ⟨hle, hne'⟩
  rw [keyRel, charsLe_iff] at hle
  have hdne : a.1.data ≠ b.1.data := fun h => hne' (congrArg String.mk h)
  rcases lt_trichotomy a.1.data b.1.data with h | h | h
  · exact h
  · exact absurd h hdne
  · exact absurd h hle

/-- The counterexample document for C6 as stated: the sibling keys `"a"`
and `"a-b"` sort as `"a" < "a-b"`, but the paths come out as
`a.x`, `a-b`, and `'.' > '-'`. -/
def exC6 : JVal :=
  .obj [("a", .obj [("x", .num (.finite 1))]), ("a-b", .num (.finite 2))]

theorem flatten_exC6 : (flattenKV exC6 "").map Prod.fst = ["a.x", "a-b"] := by
  rw [exC6]
  rw [show flattenKV (JVal.obj [("a", JVal.obj [("x", JVal.num (JNum.finite 1))]),
      ("a-b", JVal.num (JNum.finite 2))]) "" =
    flattenFields (sortFields [("a", JVal.obj [("x", JVal.num (JNum.finite 1))]),
      ("a-b", JVal.num (JNum.finite 2))]) "" from by rw [flattenKV]]
  rw [show sortFields [("a", JVal.obj [("x", JVal.num (JNum.finite 1))]),
      ("a-b", JVal.num (JNum.finite 2))] =
    [("a", JVal.obj [("x", JVal.num (JNum.finite 1))]),
     ("a-b", JVal.num (JNum.finite 2))] from by
    simp [sortFields, List.insertionSort, List.orderedInsert, keyRel, charsLe]]
  rw [flattenFields, flattenFields, flattenFields]
  simp only [JVal.objlike, if_pos, if_neg]
  rw [show flattenKV (JVal.obj [("x", JVal.num (JNum.finite 1))]) (joinPath "" "a") =
    flattenFields (sortFields [("x", JVal.num (JNum.finite 1))]) (joinPath "" "a")
    from by rw [flattenKV]]
  rw [show sortFields [("x", JVal.num (JNum.finite 1))] =
    [("x", JVal.num (JNum.finite 1))] from by
    simp [sortFields, List.insertionSort, List.orderedInsert]]
  rw [flattenFields, flattenFields]
  simp [joinPath, JVal.objlike]

theorem flatten_order_c6_counterexample :
    ¬ List.Chain' (· ≤ ·) ((flattenKV exC6 "").map Prod.fst) := by
  rw [flatten_exC6]
  intro h
  rw [List.chain'_cons] at h
  have hle : ("a.x" : String) ≤ "a-b" := h.1
  rw [String.le_iff_toList_le] at hle
  have hlt : ("a-b" : String).toList < ("a.x" : String).toList := by
    exact List.Lex.cons (List.Lex.rel (by decide))
  exact absurd hlt (not_lt_of_le hle)

def digitVal (c : Char) : ℕ := c.toNat - 48

theorem digitVal_digitCh {m : ℕ} (h : m < 10) : digitVal (digitCh m) = m := by
  rcases m with _|_|_|_|_|_|_|_|_|_|m <;> first | rfl | omega

/-- Decode a decimal digit string (left inverse of `natChars`). -/
def unnat (l : List Char) : ℕ := l.foldl (fun acc c => 10 * acc + digitVal c) 0

theorem unnat_natChars : ∀ n, unnat (natChars n) = n := by
  intro n
  induction n using Nat.strong_induction_on with
  | _ n ih =>
      rw [natChars]
      by_cases h : n < 10
      · rw [if_pos h]
        show 10 * 0 + digitVal (digitCh n) = n
        rw [digitVal_digitCh h]
        omega
      · rw [if_neg h]
        rw [unnat, List.foldl_append]
        have hih := ih (n / 10) (Nat.div_lt_self (by omega) (by omega))
        rw [unnat] at hih
        rw [hih]
        show 10 * (n / 10) + digitVal (digitCh (n % 10)) = n
        rw [digitVal_digitCh (Nat.mod_lt _ (by omega))]
        omega

theorem natStr_inj {a b : ℕ} (h : natStr a = natStr b) : a = b := by
  have hd : natChars a = natChars b := congrArg String.data h
  have h2 := congrArg unnat hd
  rwa [unnat_natChars, unnat_natChars] at h2

theorem arrFields_mem :
    ∀ (xs : List JVal) (i : ℕ) (k : String) (v : JVal),
      (k, v) ∈ arrFields xs i → v ∈ xs ∧ ∃ m, i ≤ m ∧ k = natStr m := by
  intro xs
  induction xs with
  | nil => intro i k v h; simp [arrFields] at h
  | cons x r ih =>
      intro i k v h
      rw [arrFields] at h
      rcases List.mem_cons.mp h with heq | hm
      · injection heq with h1 h2
        exact ⟨by rw [h2]; exact List.mem_cons_self _ _, i, le_rfl, h1⟩
      · obtain ⟨hv, m, hm1, hm2⟩ := ih (i + 1) k v hm
        exact ⟨List.mem_cons_of_mem _ hv, m, by omega, hm2⟩

theorem arrFields_nodup (xs : List JVal) :
    ∀ i, ((arrFields xs i).map Prod.fst).Nodup := by
  induction xs with
  | nil => intro i; simp [arrFields]
  | cons x r ih =>
      intro i
      rw [arrFields, List.map_cons, List.nodup_cons]
      constructor
      · intro hm
        rw [List.mem_map] at hm
        obtain ⟨⟨k, v⟩, hmem, hk⟩ := hm
        obtain ⟨_, m, hm1, hm2⟩ := arrFields_mem r (i + 1) k v hmem
        simp only at hk
        have : i = m := natStr_inj (by rw [← hk, hm2])
        omega
      · exact ih (i + 1)

theorem goodFs_mem :
    ∀ fs, goodFs fs = true → ∀ k v, (k, v) ∈ fs →
      goodKey k = true ∧ goodDoc v = true := by
  intro fs
  induction fs with
  | nil => intro _ k v h; simp at h
  | cons a r ih =>
      intro hg k v h
      rcases a with ⟨k', v'⟩
      rw [goodFs] at hg
      simp only [Bool.and_eq_true] at hg
      rcases List.mem_cons.mp h with heq | hm
      · cases heq; exact ⟨hg.1.1, hg.1.2⟩
      · exact ih hg.2 k v hm

theorem goodL_mem :
    ∀ xs, goodL xs = true → ∀ v, v ∈ xs → goodDoc v = true := by
  intro xs
  induction xs with
  | nil => intro _ v h; simp at h
  | cons x r ih =>
      intro hg v h
      rw [goodL] at hg
      simp only [Bool.and_eq_true] at hg
      rcases List.mem_cons.mp h with heq | hm
      · cases heq; exact hg.1
      · exact ih hg.2 v hm

theorem str_eq_empty_iff (q : String) : q = "" ↔ q.data = [] := by
  constructor
  · rintro rfl; rfl
  · intro h
    obtain ⟨l⟩ := q
    have hl : l = [] := h
    subst hl
    rfl

theorem flattenKV_obj (fs : List (String × JVal)) (p : String) :
    flattenKV (.obj fs) p = flattenFields (sortFields fs) p := by rw [flattenKV]

theorem flattenKV_arr (xs : List JVal) (p : String) :
    flattenKV (.arr xs) p = flattenFields (sortFields (arrFields xs 0)) p := by
  rw [flattenKV]

theorem flattenKV_leaf (v : JVal) (hv : v.objlike = false) (p : String) :
    flattenKV v p = [(trimDot p, v)] := by
  rcases v with _ | _ | _ | _ | _ | _
  · simp [flattenKV]
  · simp [flattenKV]
  · simp [flattenKV]
  · simp [flattenKV]
  · simp [JVal.objlike] at hv
  · simp [JVal.objlike] at hv

/-- One key's contribution to the flattened output. -/
def blockFn (p : String) (kv : String × JVal) : List (String × JVal) :=
  if kv.2.objlike then flattenKV kv.2 (joinPath p kv.1) else [(joinPath p kv.1, kv.2)]

theorem flattenFields_eq_flatten :
    ∀ (l : List (String × JVal)) (p : String),
      flattenFields l p = (l.map (blockFn p)).flatten := by
  intro l p
  induction l with
  | nil => rw [flattenFields]; simp
  | cons a r ih =>
      rcases a with ⟨k, v⟩
      rw [flattenFields, List.map_cons, List.flatten_cons, ih]
      rfl

/-- The character prefix shared by all paths produced under prefix `p`. -/
def prefCh (p : String) : List Char := if p = "" then [] else p.data ++ ['.']

theorem joinPath_data (p k : String) :
    (joinPath p k).data = prefCh p ++ k.data := by
  rw [joinPath, prefCh]
  by_cases hp : p = ""
  · rw [if_pos hp, if_pos hp]; rfl
  · rw [if_neg hp, if_neg hp]
    simp [String.data_append]

theorem joinPath_ne_empty (p k : String) (hk : k ≠ "") : joinPath p k ≠ "" := by
  intro h
  have hd := congrArg String.data h
  rw [joinPath_data] at hd
  simp at hd
  exact hk ((str_eq_empty_iff k).mpr hd.2)

theorem goodKey_spec {k : String} (h : goodKey k = true) :
    k ≠ "" ∧ ∀ c ∈ k.data, '.' < c := by
  rw [goodKey, Bool.and_eq_true] at h
  obtain ⟨h1, h2⟩ := h
  refine ⟨?_, ?_⟩
  · intro he; subst he; exact absurd h1 (by decide)
  · intro c hc
    rw [List.all_eq_true] at h2
    exact of_decide_eq_true (h2 c hc)

theorem digit_gt_dot {c : Char} (h : isDigitCh c = true) : '.' < c := by
  rw [isDigitCh, Bool.and_eq_true] at h
  have h0 : '0' ≤ c := of_decide_eq_true h.1
  exact lt_of_lt_of_le (by decide : '.' < '0') h0

theorem goodKey_natStr (m : ℕ) : goodKey (natStr m) = true := by
  rw [goodKey, Bool.and_eq_true]
  constructor
  · have := natChars_ne_nil m
    simp [natStr, List.isEmpty_iff]
    exact this
  · rw [List.all_eq_true]
    intro c hc
    exact decide_eq_true (digit_gt_dot (natChars_digits m c hc))

theorem chain'_flatten_blocks {α : Type} {R : α → α → Prop} :
    ∀ L : List (List α),
      (∀ b ∈ L, List.Chain' R b) →
      L.Pairwise (fun b1 b2 => ∀ x ∈ b1, ∀ y ∈ b2, R x y) →
      List.Chain' R L.flatten := by
  intro L
  induction L with
  | nil => intro _ _; simp
  | cons b L ih =>
      intro hc hp
      rw [List.flatten_cons, List.chain'_append]
      rw [List.pairwise_cons] at hp
      refine ⟨hc b (List.mem_cons_self _ _),
        ih (fun b2 h2 => hc b2 (List.mem_cons_of_mem _ h2)) hp.2, ?_⟩
      intro x hx y hy
      have hxm : x ∈ b := List.mem_of_mem_getLast? hx
      have hym : y ∈ L.flatten := List.mem_of_mem_head? hy
      rw [List.mem_flatten] at hym
      obtain ⟨b2, hb2, hyb2⟩ := hym
      exact hp.1 b2 hb2 x hxm y hyb2

theorem key_block_lt :
    ∀ {k1 k2 : List Char}, k1 < k2 →
      (∀ c ∈ k2, '.' < c) →
      ∀ {e1 : List Char}, (e1 = [] ∨ ∃ t, e1 = '.' :: t) →
      ∀ e2 : List Char, (k1 ++ e1) < (k2 ++ e2) := by
  intro k1 k2 hlt
  induction hlt with
  | nil =>
      intro hk2 e1 he1 e2
      rename_i b bs
      rw [List.nil_append, List.cons_append]
      rcases he1 with rfl | ⟨t, rfl⟩
      · exact List.nil_lt_cons _ _
      · exact List.Lex.rel (hk2 b (List.mem_cons_self _ _))
  | cons h ih =>
      intro hk2 e1 he1 e2
      rename_i a l1 l2
      rw [List.cons_append, List.cons_append]
      exact List.Lex.cons (ih (fun c hc => hk2 c (List.mem_cons_of_mem _ hc)) he1 e2)
  | rel h =>
      intro hk2 e1 he1 e2
      rw [List.cons_append, List.cons_append]
      exact List.Lex.rel h

theorem flatten_shape :
    ∀ w : JVal, goodDoc w = true → w.objlike = true →
      ∀ q : String, q ≠ "" →
        ∀ pr ∈ flattenKV w q, ∃ r, pr.1.data = q.data ++ '.' :: r := by
  refine jvalStrongInd ?_
  intro w ih hg hobj q hq pr hpr
  rcases w with _ | _ | _ | _ | xs | fs
  · simp [JVal.objlike] at hobj
  · simp [JVal.objlike] at hobj
  · simp [JVal.objlike] at hobj
  · simp [JVal.objlike] at hobj
  · -- array
    rw [flattenKV_arr, flattenFields_eq_flatten, List.mem_flatten] at hpr
    obtain ⟨b, hb, hprb⟩ := hpr
    rw [List.mem_map] at hb
    obtain ⟨kv, hkvmem, rfl⟩ := hb
    rcases kv with ⟨k, v⟩
    have hkvfs : (k, v) ∈ arrFields xs 0 := (sortFields_perm _).subset hkvmem
    obtain ⟨hvxs, m, _, rfl⟩ := arrFields_mem xs 0 k v hkvfs
    rw [goodDoc] at hg
    have hgv : goodDoc v = true := goodL_mem xs hg v hvxs
    have hkne : natStr m ≠ "" := (goodKey_spec (goodKey_natStr m)).1
    rw [blockFn] at hprb
    by_cases hvo : v.objlike = true
    · rw [if_pos hvo] at hprb
      obtain ⟨r, hr⟩ := ih v (by rw [jsize]; exact jsizeL_mem_bound xs v hvxs) hgv hvo
        (joinPath q (natStr m)) (joinPath_ne_empty q _ hkne) pr hprb
      refine ⟨(natStr m).data ++ '.' :: r, ?_⟩
      rw [hr, joinPath_data, prefCh, if_neg hq]
      simp
    · rw [if_neg hvo] at hprb
      rw [List.mem_singleton] at hprb
      subst hprb
      refine ⟨(natStr m).data, ?_⟩
      rw [joinPath_data, prefCh, if_neg hq]
      simp
  · -- object
    rw [flattenKV_obj, flattenFields_eq_flatten, List.mem_flatten] at hpr
    obtain ⟨b, hb, hprb⟩ := hpr
    rw [List.mem_map] at hb
    obtain ⟨kv, hkvmem, rfl⟩ := hb
    rcases kv with ⟨k, v⟩
    have hkvfs : (k, v) ∈ fs := (sortFields_perm _).subset hkvmem
    rw [goodDoc, Bool.and_eq_true] at hg
    obtain ⟨hgk, hgv⟩ := goodFs_mem fs hg.2 k v hkvfs
    have hkne : k ≠ "" := (goodKey_spec hgk).1
    rw [blockFn] at hprb
    by_cases hvo : v.objlike = true
    · rw [if_pos hvo] at hprb
      obtain ⟨r, hr⟩ := ih v (by rw [jsize]; exact jsizeFs_mem_bound fs k v hkvfs) hgv hvo
        (joinPath q k) (joinPath_ne_empty q _ hkne) pr hprb
      refine ⟨k.data ++ '.' :: r, ?_⟩
      rw [hr, joinPath_data, prefCh, if_neg hq]
      simp
    · rw [if_neg hvo] at hprb
      rw [List.mem_singleton] at hprb
      subst hprb
      refine ⟨k.data, ?_⟩
      rw [joinPath_data, prefCh, if_neg hq]
      simp

theorem block_shape (p : String) (kv : String × JVal)
    (hk : goodKey kv.1 = true) (hd : goodDoc kv.2 = true) :
    ∀ x ∈ blockFn p kv,
      ∃ e, x.1.data = prefCh p ++ (kv.1.data ++ e) ∧
        (e = [] ∨ ∃ t, e = '.' :: t) := by
  intro x hx
  rw [blockFn] at hx
  by_cases hvo : kv.2.objlike = true
  · rw [if_pos hvo] at hx
    obtain ⟨r, hr⟩ := flatten_shape kv.2 hd hvo (joinPath p kv.1)
      (joinPath_ne_empty p kv.1 (goodKey_spec hk).1) x hx
    refine ⟨'.' :: r, ?_, Or.inr ⟨r, rfl⟩⟩
    rw [hr, joinPath_data]
    simp
  · rw [if_neg hvo] at hx
    rw [List.mem_singleton] at hx
    subst hx
    refine ⟨[], ?_, Or.inl rfl⟩
    rw [joinPath_data]
    simp

theorem chain_blocks (p : String) (l : List (String × JVal))
    (hgood : ∀ kv ∈ l, goodKey kv.1 = true ∧ goodDoc kv.2 = true)
    (hpw : l.Pairwise (fun a b => a.1.data < b.1.data))
    (hchain : ∀ kv ∈ l, kv.2.objlike = true →
      ∀ q', List.Chain' (fun a b : String × JVal => a.1 ≤ b.1) (flattenKV kv.2 q')) :
    List.Chain' (fun a b : String × JVal => a.1 ≤ b.1) (flattenFields l p) := by
  rw [flattenFields_eq_flatten]
  apply chain'_flatten_blocks
  · intro b hb
    rw [List.mem_map] at hb
    obtain ⟨kv, hkv, rfl⟩ := hb
    rw [blockFn]
    by_cases hvo : kv.2.objlike = true
    · rw [if_pos hvo]; exact hchain kv hkv hvo _
    · rw [if_neg hvo]; exact List.chain'_singleton _
  · rw [List.pairwise_map]
    refine List.Pairwise.imp_of_mem ?_ hpw
    intro kv1 kv2 h1 h2 hlt x hx y hy
    obtain ⟨hk1, hd1⟩ := hgood kv1 h1
    obtain ⟨hk2, hd2⟩ := hgood kv2 h2
    obtain ⟨e1, hx1, he1⟩ := block_shape p kv1 hk1 hd1 x hx
    obtain ⟨e2, hx2, _⟩ := block_shape p kv2 hk2 hd2 y hy
    have hlt2 : (kv1.1.data ++ e1) < (kv2.1.data ++ e2) :=
      key_block_lt hlt (goodKey_spec hk2).2 he1 e2
    have hlt3 : x.1.data < y.1.data := by
      rw [hx1, hx2]
      exact List.Lex.append_left _ hlt2 (prefCh p)
    have hxy : x.1 < y.1 := by
      rw [String.lt_iff_toList_lt]
      exact hlt3
    exact le_of_lt hxy

theorem flatten_chain :
    ∀ w : JVal, goodDoc w = true →
      ∀ q : String,
        List.Chain' (fun a b : String × JVal => a.1 ≤ b.1) (flattenKV w q) := by
  refine jvalStrongInd ?_
  intro w ih hg q
  rcases w with _ | _ | _ | _ | xs | fs
  · rw [flattenKV_leaf _ (by rfl)]; exact List.chain'_singleton _
  · rw [flattenKV_leaf _ (by rfl)]; exact List.chain'_singleton _
  · rw [flattenKV_leaf _ (by rfl)]; exact List.chain'_singleton _
  · rw [flattenKV_leaf _ (by rfl)]; exact List.chain'_singleton _
  · -- array
    rw [goodDoc] at hg
    rw [flattenKV_arr]
    apply chain_blocks
    · rintro ⟨k, v⟩ hkv
      obtain ⟨hvxs, m, _, rfl⟩ :=
        arrFields_mem xs 0 k v ((sortFields_perm _).subset hkv)
      exact ⟨goodKey_natStr m, goodL_mem xs hg v hvxs⟩
    · exact sortFields_pairwise _ (arrFields_nodup xs 0)
    · rintro ⟨k, v⟩ hkv hvo q'
      obtain ⟨hvxs, m, _, rfl⟩ :=
        arrFields_mem xs 0 k v ((sortFields_perm _).subset hkv)
      exact ih v (by rw [jsize]; exact jsizeL_mem_bound xs v hvxs)
        (goodL_mem xs hg v hvxs) q'
  · -- object
    rw [goodDoc, Bool.and_eq_true] at hg
    rw [flattenKV_obj]
    apply chain_blocks
    · rintro ⟨k, v⟩ hkv
      exact goodFs_mem fs hg.2 k v ((sortFields_perm _).subset hkv)
    · exact sortFields_pairwise _ (of_decide_eq_true hg.1)
    · rintro ⟨k, v⟩ hkv hvo q'
      have hkvfs : (k, v) ∈ fs := (sortFields_perm _).subset hkv
      exact ih v (by rw [jsize]; exact jsizeFs_mem_bound fs k v hkvfs)
        (goodFs_mem fs hg.2 k v hkvfs).2 q'

/-- C6 (amended): for every JSON document in which, at every object level,
the keys are distinct, nonempty, and made only of characters strictly
greater than `'.'` (U+002E) — as array index keys always are — the
sequence of dotted paths produced by `flatten` (depth-first, keys visited
in ascending code-unit order at each level) is lexicographically
non-decreasing as full dotted-path strings.  Without the character
restriction the claim fails: a sibling key extending a shorter key with a
character below `'.'` (such as `-`) sorts before the shorter key's subtree
paths but yields a lexicographically smaller path (see the
counterexample). -/
theorem flatten_sorted_c6_amended (v : JVal) (hg : goodDoc v = true) :
    List.Chain' (· ≤ ·) ((flattenKV v "").map Prod.fst) := by
  rw [List.chain'_map]
  exact flatten_chain v hg ""

/-- Witness for the amended C6 at a concrete nested document. -/
theorem flatten_sorted_c6_amended_witness :
    List.Chain' (· ≤ ·) ((flattenKV exAlert "").map Prod.fst) :=
  flatten_sorted_c6_amended exAlert (by rfl)
